import Mathlib

/-!
Verification of the travel-planner path-search core.

A shallow embedding of `src/algorithms.py` (the `dijkstra` and `astar`
searches) and the parts of `src/data_loader.py` they depend on
(`get_edge_weight`, `build_adjacency`).

Modelling choices:
* Node identifiers (city names in the reference data) are modelled as `ℕ`:
  the spec calls them opaque, hashable, comparable tokens, and the searches
  use them only for equality, set membership and order-based tie-breaking.
* Python floats are modelled as `WithTop ℚ`: `float("inf")` is `⊤`,
  `inf + x = inf` and the linear order agree with IEEE behaviour on the
  values the core manipulates (sums and comparisons of finite non-NaN
  values and `inf`).
* A Python dict is modelled as an association list consulted by first
  match (`adjGet`), with `dict.get(node, [])` semantics.
* The `heapq` frontier is modelled as a list from which `popMin` extracts
  the least element under the exact tuple order Python uses
  (lexicographic on the entry components).  Among equal tuples `heapq`'s
  choice is unobservable because equal tuples are identical values.
* Edge records are Python dicts whose metric fields may be absent
  (`edge.get(key, default)` in `get_edge_weight`), hence `Option ℚ`
  fields.
-/

/-- Python float values flowing through the search core: a rational or
`float("inf")` (`⊤`). -/
abbrev Winf := WithTop ℚ

/-- An edge record as built by `load_edges` / consumed by
`get_edge_weight` and `build_adjacency` (fields in the dict-literal order
of `load_edges`).  Metric fields are optional because `get_edge_weight`
reads them with `edge.get(key, default)`. -/
structure Edge where
  source : ℕ
  target : ℕ
  mode : String
  distance_km : Option ℚ
  time_min : Option ℚ
  cost_usd : Option ℚ
  emission_kgco2 : Option ℚ
  safety_score : Option ℚ
  accessible : Bool
deriving DecidableEq, Repr

/-- `edge.get(key, float("inf"))`: the stored magnitude, or `inf` when the
key is absent. -/
def magInf (o : Option ℚ) : Winf :=
  match o with
  | some q => (q : Winf)
  | none => ⊤

/-- Embedding of `get_edge_weight(edge, factor)` from `src/data_loader.py`:
select the scalar weight of an edge for a metric identifier, falling back
to distance for unrecognized metrics; the safety score is inverted into a
penalty `1.0 - edge.get("safety_score", 0.5)`. -/
def get_edge_weight (edge : Edge) (factor : String) : Winf :=
  if factor = "distance" then magInf edge.distance_km
  else if factor = "time" then magInf edge.time_min
  else if factor = "cost" then magInf edge.cost_usd
  else if factor = "eco" then magInf edge.emission_kgco2
  else if factor = "safety" then ((1 - edge.safety_score.getD (1/2) : ℚ) : Winf)
  else magInf edge.distance_km

/-- A neighbor entry in the shape the search loops unpack:
`(neigh, w, edge)` as yielded by `neighbor_generator`. -/
abbrev Nbr := ℕ × Winf × Edge

/-- An adjacency dict whose values are `(neigh, w, edge)` triples, the
shape `dijkstra` and `astar` destructure. -/
abbrev AdjT := List (ℕ × List Nbr)

/-- `adj.get(node, [])` on the triple-shaped adjacency dict. -/
def adjGet : AdjT → ℕ → List Nbr
  | [], _ => []
  | (k, l) :: tl, n => if k = n then l else adjGet tl n

/-- An adjacency dict in the shape `build_adjacency` produces:
values are `(neighbor, edge)` pairs. -/
abbrev AdjP := List (ℕ × List (ℕ × Edge))

/-- `adj[s].append((t, e))` on a `defaultdict(list)` modelled as an
association list. -/
def addNbr : AdjP → ℕ → ℕ × Edge → AdjP
  | [], k, v => [(k, [v])]
  | (k0, l) :: tl, k, v =>
    if k0 = k then (k0, l ++ [v]) :: tl else (k0, l) :: addNbr tl k v

/-- The mirrored edge object `build_adjacency` creates for the reverse
direction of an undirected edge. -/
def mirrorEdge (e : Edge) : Edge :=
  { e with source := e.target, target := e.source }

/-- Embedding of `build_adjacency(edges, directed)` from
`src/data_loader.py`: fold the edge list into a dict from source city to
the list of `(neighbor, edge)` pairs, mirroring each edge when the graph
is undirected. -/
def build_adjacency (edges : List Edge) (directed : Bool) : AdjP :=
  edges.foldl
    (fun adj e =>
      let adj1 := addNbr adj e.source (e.target, e)
      if directed then adj1
      else addNbr adj1 e.target (e.source, mirrorEdge e))
    []

/-- A `dijkstra` frontier entry `(cost, node, path)`. -/
abbrev DEntry := Winf × ℕ × List ℕ

/-- An `astar` frontier entry `(est, cost, node, path)`. -/
abbrev AEntry := Winf × Winf × ℕ × List ℕ

/-- Python's lexicographic `<` on lists of node identifiers. -/
def pathLt : List ℕ → List ℕ → Prop
  | [], [] => False
  | [], _ :: _ => True
  | _ :: _, [] => False
  | a :: as, b :: bs => a < b ∨ (a = b ∧ pathLt as bs)

instance pathLt.instDec : (l1 l2 : List ℕ) → Decidable (pathLt l1 l2)
  | [], [] => isFalse id
  | [], _ :: _ => isTrue trivial
  | _ :: _, [] => isFalse id
  | a :: as, b :: bs =>
    have := pathLt.instDec as bs
    inferInstanceAs (Decidable (a < b ∨ (a = b ∧ pathLt as bs)))

/-- Python's `<` on `(cost, node, path)` tuples. -/
def dLt (a b : DEntry) : Prop :=
  a.1 < b.1 ∨ (a.1 = b.1 ∧ (a.2.1 < b.2.1 ∨ (a.2.1 = b.2.1 ∧ pathLt a.2.2 b.2.2)))

instance : DecidableRel dLt := fun a b => by
  unfold dLt
  infer_instance

/-- Python's `<` on `(est, cost, node, path)` tuples. -/
def aLt (a b : AEntry) : Prop :=
  a.1 < b.1 ∨
    (a.1 = b.1 ∧
      (a.2.1 < b.2.1 ∨
        (a.2.1 = b.2.1 ∧
          (a.2.2.1 < b.2.2.1 ∨ (a.2.2.1 = b.2.2.1 ∧ pathLt a.2.2.2 b.2.2.2)))))

instance : DecidableRel aLt := fun a b => by
  unfold aLt
  infer_instance

/-- Select a least element (first occurrence) and return it with the
remaining elements. -/
def selectMin (lt : α → α → Prop) [DecidableRel lt] : α → List α → α × List α
  | best, [] => (best, [])
  | best, e :: rest =>
    if lt e best then
      let s := selectMin lt e rest
      (s.1, best :: s.2)
    else
      let s := selectMin lt best rest
      (s.1, e :: s.2)

/-- `heapq.heappop` at the level of values: remove a least element of the
frontier, or `none` when the frontier is empty (loop exit). -/
def popMin (lt : α → α → Prop) [DecidableRel lt] : List α → Option (α × List α)
  | [] => none
  | e :: rest => some (selectMin lt e rest)

/-- One iteration of the `while pq:` loop of `dijkstra` (`Sum.inl` is a
`return`, `Sum.inr` the next loop state).  An empty frontier is the
`return float("inf"), []` exit. -/
def dijkstraStep (adj : AdjT) (en : ℕ) (factor : String)
    (pq : List DEntry) (vis : List ℕ) :
    (Winf × List ℕ) ⊕ (List DEntry × List ℕ) :=
  match popMin dLt pq with
  | none => Sum.inl (⊤, [])
  | some ((cost, node, path), rest) =>
    if node ∈ vis then Sum.inr (rest, vis)
    else
      if node = en then Sum.inl (cost, path ++ [node])
      else
        Sum.inr
          (rest ++ (adjGet adj node).map
            (fun nb => (cost + get_edge_weight nb.2.2 factor, nb.1, path ++ [node])),
           node :: vis)

/-- The `dijkstra` loop, fuel-indexed (`none` = fuel exhausted; the
top-level entry point supplies enough fuel, see `searchFuel`). -/
def dijkstraLoop (adj : AdjT) (en : ℕ) (factor : String) :
    ℕ → List DEntry → List ℕ → Option (Winf × List ℕ)
  | 0, _, _ => none
  | fuel+1, pq, vis =>
    match dijkstraStep adj en factor pq vis with
    | Sum.inl r => some r
    | Sum.inr st => dijkstraLoop adj en factor fuel st.1 st.2

/-- Total length of the neighbor lists of keys outside `vis`: the fuel
potential of a search state. -/
def restEdges : AdjT → List ℕ → ℕ
  | [], _ => 0
  | kv :: tl, vis => (if kv.1 ∈ vis then 0 else kv.2.length) + restEdges tl vis

/-- Enough fuel for a full run from the initial state. -/
def searchFuel (adj : AdjT) : ℕ :=
  restEdges adj [] + 2

/-- Embedding of `dijkstra(adj, start, end, factor)` from
`src/algorithms.py`. -/
def dijkstra (adj : AdjT) (start en : ℕ) (factor : String) :
    Option (Winf × List ℕ) :=
  dijkstraLoop adj en factor (searchFuel adj) [(0, start, [])] []

/-- One iteration of the `while pq:` loop of `astar`, with the caller's
`heuristic_fn` as `h`. -/
def astarStep (adj : AdjT) (en : ℕ) (factor : String) (h : ℕ → ℕ → ℚ)
    (pq : List AEntry) (vis : List ℕ) :
    (Winf × List ℕ) ⊕ (List AEntry × List ℕ) :=
  match popMin aLt pq with
  | none => Sum.inl (⊤, [])
  | some ((_, cost, node, path), rest) =>
    if node ∈ vis then Sum.inr (rest, vis)
    else
      if node = en then Sum.inl (cost, path ++ [node])
      else
        Sum.inr
          (rest ++ (adjGet adj node).map
            (fun nb =>
              (cost + get_edge_weight nb.2.2 factor + ((h nb.1 en : ℚ) : Winf),
               cost + get_edge_weight nb.2.2 factor, nb.1, path ++ [node])),
           node :: vis)

/-- The `astar` loop, fuel-indexed. -/
def astarLoop (adj : AdjT) (en : ℕ) (factor : String) (h : ℕ → ℕ → ℚ) :
    ℕ → List AEntry → List ℕ → Option (Winf × List ℕ)
  | 0, _, _ => none
  | fuel+1, pq, vis =>
    match astarStep adj en factor h pq vis with
    | Sum.inl r => some r
    | Sum.inr st => astarLoop adj en factor h fuel st.1 st.2

/-- Embedding of `astar(adj, start, end, nodes, factor, heuristic_fn)`
from `src/algorithms.py`, with the caller-supplied `heuristic_fn` (the
`None` default delegates to the external haversine heuristic provider,
which is floating-point geography outside the search core). -/
def astar (adj : AdjT) (start en : ℕ) (factor : String) (h : ℕ → ℕ → ℚ) :
    Option (Winf × List ℕ) :=
  astarLoop adj en factor h (searchFuel adj)
    [((0 : Winf) + ((h start en : ℚ) : Winf), 0, start, [])] []

/-- A path from `x` to `z` through the triple-shaped adjacency view,
recording the node sequence and the total weight under `factor` exactly
as the searches accumulate it. -/
inductive IsPath (adj : AdjT) (factor : String) : ℕ → ℕ → List ℕ → Winf → Prop where
  | single (x : ℕ) : IsPath adj factor x x [x] 0
  | cons (x : ℕ) {y z : ℕ} {p : List ℕ} {c : Winf} (w : Winf) (e : Edge)
      (hmem : (y, w, e) ∈ adjGet adj x) (htail : IsPath adj factor y z p c) :
      IsPath adj factor x z (x :: p) (get_edge_weight e factor + c)

/-- All weights offered by the adjacency view are non-negative under
`factor`. -/
def NonnegWeights (adj : AdjT) (factor : String) : Prop :=
  ∀ kv ∈ adj, ∀ nb ∈ kv.2, (0 : Winf) ≤ get_edge_weight nb.2.2 factor

instance (adj : AdjT) (factor : String) : Decidable (NonnegWeights adj factor) := by
  unfold NonnegWeights
  infer_instance

/-- The heuristic is consistent (monotone) along every edge of the view,
toward the goal `en`. -/
def ConsistentH (adj : AdjT) (factor : String) (h : ℕ → ℕ → ℚ) (en : ℕ) : Prop :=
  ∀ kv ∈ adj, ∀ nb ∈ kv.2,
    ((h kv.1 en : ℚ) : Winf) ≤ get_edge_weight nb.2.2 factor + ((h nb.1 en : ℚ) : Winf)

instance (adj : AdjT) (factor : String) (h : ℕ → ℕ → ℚ) (en : ℕ) :
    Decidable (ConsistentH adj factor h en) := by
  unfold ConsistentH
  infer_instance

/-!
Dynamically-shaped adjacency values.

The search loops destructure each neighbor entry with
`for neigh, w, edge in adj.get(node, [])`, i.e. they require 3-tuples,
while `build_adjacency` stores 2-tuples `(neighbor, edge)`.  To settle
claims about that shape mismatch we model neighbor entries as Python
tuples of either arity and the tuple unpacking as a fallible operation
(`ValueError` on arity mismatch), exactly as CPython behaves.
-/

/-- A neighbor entry as a Python tuple: either the 2-tuple stored by
`build_adjacency` or the 3-tuple yielded by `neighbor_generator`. -/
inductive NbrVal where
  | pair (t : ℕ) (e : Edge)
  | triple (t : ℕ) (w : Winf) (e : Edge)
deriving DecidableEq, Repr

/-- An adjacency dict whose neighbor entries are dynamic tuples. -/
abbrev AdjDyn := List (ℕ × List NbrVal)

/-- `adj.get(node, [])` on a dynamically-shaped adjacency dict. -/
def adjGetDyn : AdjDyn → ℕ → List NbrVal
  | [], _ => []
  | (k, l) :: tl, n => if k = n then l else adjGetDyn tl n

/-- The `build_adjacency` output seen as a dynamically-shaped view: every
neighbor entry is a 2-tuple. -/
def pairView (adj : AdjP) : AdjDyn :=
  adj.map (fun kv => (kv.1, kv.2.map (fun te => NbrVal.pair te.1 te.2)))

/-- The neighbor-expansion `for` loop of `dijkstra` with dynamic tuple
unpacking: push an entry per 3-tuple, raise `ValueError` at the first
2-tuple. -/
def pushDyn (factor : String) (cost : Winf) (path2 : List ℕ) :
    List DEntry → List NbrVal → Except String (List DEntry)
  | acc, [] => Except.ok acc
  | _, NbrVal.pair _ _ :: _ =>
    Except.error "ValueError: not enough values to unpack (expected 3, got 2)"
  | acc, NbrVal.triple t _ e :: rest =>
    pushDyn factor cost path2
      (acc ++ [(cost + get_edge_weight e factor, t, path2)]) rest

/-- The `dijkstra` loop over a dynamically-shaped adjacency view; a raised
`ValueError` aborts the search. -/
def dijkstraLoopDyn (adj : AdjDyn) (en : ℕ) (factor : String) :
    ℕ → List DEntry → List ℕ → Option (Except String (Winf × List ℕ))
  | 0, _, _ => none
  | fuel+1, pq, vis =>
    match popMin dLt pq with
    | none => some (Except.ok (⊤, []))
    | some ((cost, node, path), rest) =>
      if node ∈ vis then dijkstraLoopDyn adj en factor fuel rest vis
      else
        if node = en then some (Except.ok (cost, path ++ [node]))
        else
          match pushDyn factor cost (path ++ [node]) rest (adjGetDyn adj node) with
          | Except.error msg => some (Except.error msg)
          | Except.ok pq2 => dijkstraLoopDyn adj en factor fuel pq2 (node :: vis)

/-- Fuel bound for the dynamic model. -/
def fuelDyn (adj : AdjDyn) : ℕ :=
  (adj.map (fun kv => kv.2.length)).sum + 2

/-- `dijkstra` on a dynamically-shaped adjacency view. -/
def dijkstraDyn (adj : AdjDyn) (start en : ℕ) (factor : String) :
    Option (Except String (Winf × List ℕ)) :=
  dijkstraLoopDyn adj en factor (fuelDyn adj) [(0, start, [])] []

/-- The neighbor-expansion `for` loop of `astar` with dynamic tuple
unpacking. -/
def pushDynA (factor : String) (h : ℕ → ℕ → ℚ) (en : ℕ) (cost : Winf)
    (path2 : List ℕ) :
    List AEntry → List NbrVal → Except String (List AEntry)
  | acc, [] => Except.ok acc
  | _, NbrVal.pair _ _ :: _ =>
    Except.error "ValueError: not enough values to unpack (expected 3, got 2)"
  | acc, NbrVal.triple t _ e :: rest =>
    pushDynA factor h en cost path2
      (acc ++ [(cost + get_edge_weight e factor + ((h t en : ℚ) : Winf),
        cost + get_edge_weight e factor, t, path2)]) rest

/-- The `astar` loop over a dynamically-shaped adjacency view. -/
def astarLoopDyn (adj : AdjDyn) (en : ℕ) (factor : String) (h : ℕ → ℕ → ℚ) :
    ℕ → List AEntry → List ℕ → Option (Except String (Winf × List ℕ))
  | 0, _, _ => none
  | fuel+1, pq, vis =>
    match popMin aLt pq with
    | none => some (Except.ok (⊤, []))
    | some ((_, cost, node, path), rest) =>
      if node ∈ vis then astarLoopDyn adj en factor h fuel rest vis
      else
        if node = en then some (Except.ok (cost, path ++ [node]))
        else
          match pushDynA factor h en cost (path ++ [node]) rest (adjGetDyn adj node) with
          | Except.error msg => some (Except.error msg)
          | Except.ok pq2 => astarLoopDyn adj en factor h fuel pq2 (node :: vis)

/-- `astar` on a dynamically-shaped adjacency view. -/
def astarDyn (adj : AdjDyn) (start en : ℕ) (factor : String) (h : ℕ → ℕ → ℚ) :
    Option (Except String (Winf × List ℕ)) :=
  astarLoopDyn adj en factor h (fuelDyn adj)
    [((0 : Winf) + ((h start en : ℚ) : Winf), 0, start, [])] []

/-!
Properties of the frontier extraction.
-/

theorem selectMin_perm {α : Type*} (lt : α → α → Prop) [DecidableRel lt] :
    ∀ (l : List α) (best : α),
      List.Perm ((selectMin lt best l).1 :: (selectMin lt best l).2) (best :: l)
  | [], best => by simp [selectMin]
  | e :: rest, best => by
    by_cases h : lt e best
    · simp only [selectMin, if_pos h]
      exact (List.Perm.swap best _ _).trans ((selectMin_perm lt rest e).cons best)
    · simp only [selectMin, if_neg h]
      exact ((List.Perm.swap e _ _).trans
        ((selectMin_perm lt rest best).cons e)).trans (List.Perm.swap best e rest)

theorem selectMin_min {α β : Type*} (lt : α → α → Prop) [DecidableRel lt]
    [LinearOrder β] (k : α → β)
    (h1 : ∀ x y, lt x y → k x ≤ k y) (h2 : ∀ x y, ¬ lt x y → k y ≤ k x) :
    ∀ (l : List α) (best : α), ∀ x ∈ best :: l, k (selectMin lt best l).1 ≤ k x
  | [], best => by simp [selectMin]
  | e :: rest, best => by
    intro x hx
    by_cases h : lt e best
    · simp only [selectMin, if_pos h]
      rcases List.mem_cons.mp hx with hb | hx
      · rw [hb]
        exact le_trans
          (selectMin_min lt k h1 h2 rest e e (List.mem_cons_self e rest)) (h1 e best h)
      · exact selectMin_min lt k h1 h2 rest e x hx
    · simp only [selectMin, if_neg h]
      rcases List.mem_cons.mp hx with hb | hx
      · rw [hb]
        exact selectMin_min lt k h1 h2 rest best best (List.mem_cons_self best rest)
      · rcases List.mem_cons.mp hx with he | hx
        · rw [he]
          exact le_trans
            (selectMin_min lt k h1 h2 rest best best (List.mem_cons_self best rest))
            (h2 e best h)
        · exact selectMin_min lt k h1 h2 rest best x (List.mem_cons_of_mem best hx)

theorem popMin_perm {α : Type*} (lt : α → α → Prop) [DecidableRel lt]
    {l r : List α} {m : α} (h : popMin lt l = some (m, r)) :
    List.Perm l (m :: r) := by
  cases l with
  | nil => simp [popMin] at h
  | cons e rest =>
    simp only [popMin, Option.some.injEq] at h
    have hp := selectMin_perm lt rest e
    rw [show (selectMin lt e rest).1 = m by rw [h], show (selectMin lt e rest).2 = r by rw [h]] at hp
    exact hp.symm

theorem popMin_eq_none {α : Type*} (lt : α → α → Prop) [DecidableRel lt]
    {l : List α} : popMin lt l = none ↔ l = [] := by
  cases l <;> simp [popMin]

theorem popMin_min {α β : Type*} (lt : α → α → Prop) [DecidableRel lt]
    [LinearOrder β] (k : α → β)
    (h1 : ∀ x y, lt x y → k x ≤ k y) (h2 : ∀ x y, ¬ lt x y → k y ≤ k x)
    {l r : List α} {m : α} (h : popMin lt l = some (m, r)) :
    ∀ x ∈ l, k m ≤ k x := by
  cases l with
  | nil => simp [popMin] at h
  | cons e rest =>
    simp only [popMin, Option.some.injEq] at h
    intro x hx
    rw [show m = (selectMin lt e rest).1 by rw [h]]
    exact selectMin_min lt k h1 h2 rest e x hx

theorem dLt_le {a b : DEntry} (h : dLt a b) : a.1 ≤ b.1 := by
  rcases h with h | ⟨h, -⟩
  · exact le_of_lt h
  · exact le_of_eq h

theorem not_dLt_le {a b : DEntry} (h : ¬ dLt a b) : b.1 ≤ a.1 := by
  by_contra hc
  exact h (Or.inl (lt_of_not_le hc))

theorem aLt_le {a b : AEntry} (h : aLt a b) : a.1 ≤ b.1 := by
  rcases h with h | ⟨h, -⟩
  · exact le_of_lt h
  · exact le_of_eq h

theorem not_aLt_le {a b : AEntry} (h : ¬ aLt a b) : b.1 ≤ a.1 := by
  by_contra hc
  exact h (Or.inl (lt_of_not_le hc))

/-- The popped `dijkstra` entry has minimal cost among the frontier. -/
theorem popMin_dLt_cost {l r : List DEntry} {m : DEntry}
    (h : popMin dLt l = some (m, r)) : ∀ x ∈ l, m.1 ≤ x.1 :=
  popMin_min dLt Prod.fst (fun _ _ hxy => dLt_le hxy) (fun _ _ hxy => not_dLt_le hxy) h

/-- The popped `astar` entry has minimal estimate among the frontier. -/
theorem popMin_aLt_est {l r : List AEntry} {m : AEntry}
    (h : popMin aLt l = some (m, r)) : ∀ x ∈ l, m.1 ≤ x.1 :=
  popMin_min aLt Prod.fst (fun _ _ hxy => aLt_le hxy) (fun _ _ hxy => not_aLt_le hxy) h

/-!
Paths through the adjacency view.
-/

theorem adjGet_mem {adj : AdjT} {x : ℕ} {nb : Nbr} (h : nb ∈ adjGet adj x) :
    ∃ l, (x, l) ∈ adj ∧ nb ∈ l := by
  induction adj with
  | nil => simp [adjGet] at h
  | cons kv tl ih =>
    obtain ⟨k, l⟩ := kv
    by_cases hk : k = x
    · rw [hk]
      simp only [adjGet, if_pos hk] at h
      exact ⟨l, List.mem_cons_self _ _, h⟩
    · simp only [adjGet, if_neg hk] at h
      obtain ⟨l2, hl2, hm⟩ := ih h
      exact ⟨l2, List.mem_cons_of_mem _ hl2, hm⟩

theorem nonnegWeights_edge {adj : AdjT} {factor : String}
    (hnn : NonnegWeights adj factor) {x t : ℕ} {w : Winf} {e : Edge}
    (h : (t, w, e) ∈ adjGet adj x) : (0 : Winf) ≤ get_edge_weight e factor := by
  obtain ⟨l, hl, hm⟩ := adjGet_mem h
  exact hnn (x, l) hl (t, w, e) hm

theorem consistentH_edge {adj : AdjT} {factor : String} {h : ℕ → ℕ → ℚ} {en : ℕ}
    (hc : ConsistentH adj factor h en) {x t : ℕ} {w : Winf} {e : Edge}
    (hm : (t, w, e) ∈ adjGet adj x) :
    ((h x en : ℚ) : Winf) ≤ get_edge_weight e factor + ((h t en : ℚ) : Winf) := by
  obtain ⟨l, hl, hmm⟩ := adjGet_mem hm
  exact hc (x, l) hl (t, w, e) hmm

theorem IsPath.append_edge {adj : AdjT} {factor : String} {s x : ℕ} {p : List ℕ}
    {c : Winf} (hp : IsPath adj factor s x p c) {t : ℕ} {w : Winf} {e : Edge}
    (hmem : (t, w, e) ∈ adjGet adj x) :
    IsPath adj factor s t (p ++ [t]) (c + get_edge_weight e factor) := by
  induction hp with
  | single y =>
    have hc : IsPath adj factor y t (y :: [t]) (get_edge_weight e factor + 0) :=
      IsPath.cons y w e hmem (IsPath.single t)
    simpa [zero_add, add_zero] using hc
  | cons x w2 e2 hmem2 htail ih =>
    have hc := IsPath.cons x w2 e2 hmem2 (ih hmem)
    simpa [add_assoc] using hc

theorem IsPath.nonneg {adj : AdjT} {factor : String} {x z : ℕ} {p : List ℕ}
    {c : Winf} (hnn : NonnegWeights adj factor) (hp : IsPath adj factor x z p c) :
    (0 : Winf) ≤ c := by
  induction hp with
  | single y => exact le_refl 0
  | cons x w e hmem htail ih => exact add_nonneg (nonnegWeights_edge hnn hmem) ih

theorem IsPath.ne_nil {adj : AdjT} {factor : String} {x z : ℕ} {p : List ℕ}
    {c : Winf} (hp : IsPath adj factor x z p c) : p ≠ [] := by
  cases hp <;> simp

/-- Telescoped consistency: along any path the heuristic at the source is
at most the path cost plus the heuristic at the sink. -/
theorem ConsistentH.telescope {adj : AdjT} {factor : String} {h : ℕ → ℕ → ℚ}
    {en : ℕ} (hc : ConsistentH adj factor h en) {u z : ℕ} {p : List ℕ} {c : Winf}
    (hp : IsPath adj factor u z p c) :
    ((h u en : ℚ) : Winf) ≤ c + ((h z en : ℚ) : Winf) := by
  induction hp with
  | single y => rw [zero_add]
  | cons x w e hmem htail ih =>
    calc ((h x en : ℚ) : Winf) ≤ get_edge_weight e factor + ((h _ en : ℚ) : Winf) :=
          consistentH_edge hc hmem
      _ ≤ get_edge_weight e factor + (_ + ((h _ en : ℚ) : Winf)) :=
          add_le_add_left ih _
      _ = _ := by rw [← add_assoc]

/-!
Characterizations of a single loop iteration.
-/

theorem astarStep_none {adj : AdjT} {en : ℕ} {factor : String} {h : ℕ → ℕ → ℚ}
    {pq : List AEntry} {vis : List ℕ} (hpop : popMin aLt pq = none) :
    astarStep adj en factor h pq vis = Sum.inl (⊤, []) := by
  unfold astarStep
  rw [hpop]

theorem astarStep_skip {adj : AdjT} {en : ℕ} {factor : String} {h : ℕ → ℕ → ℚ}
    {pq rest : List AEntry} {vis : List ℕ} {f g : Winf} {node : ℕ} {path : List ℕ}
    (hpop : popMin aLt pq = some ((f, g, node, path), rest)) (hv : node ∈ vis) :
    astarStep adj en factor h pq vis = Sum.inr (rest, vis) := by
  unfold astarStep
  rw [hpop]
  simp [hv]

theorem astarStep_goal {adj : AdjT} {en : ℕ} {factor : String} {h : ℕ → ℕ → ℚ}
    {pq rest : List AEntry} {vis : List ℕ} {f g : Winf} {node : ℕ} {path : List ℕ}
    (hpop : popMin aLt pq = some ((f, g, node, path), rest)) (hv : node ∉ vis)
    (hen : node = en) :
    astarStep adj en factor h pq vis = Sum.inl (g, path ++ [node]) := by
  subst hen
  unfold astarStep
  rw [hpop]
  simp [hv]

theorem astarStep_settle {adj : AdjT} {en : ℕ} {factor : String} {h : ℕ → ℕ → ℚ}
    {pq rest : List AEntry} {vis : List ℕ} {f g : Winf} {node : ℕ} {path : List ℕ}
    (hpop : popMin aLt pq = some ((f, g, node, path), rest)) (hv : node ∉ vis)
    (hen : node ≠ en) :
    astarStep adj en factor h pq vis =
      Sum.inr
        (rest ++ (adjGet adj node).map
          (fun nb =>
            (g + get_edge_weight nb.2.2 factor + ((h nb.1 en : ℚ) : Winf),
             g + get_edge_weight nb.2.2 factor, nb.1, path ++ [node])),
         node :: vis) := by
  unfold astarStep
  rw [hpop]
  simp [hv, hen]

theorem dijkstraStep_none {adj : AdjT} {en : ℕ} {factor : String}
    {pq : List DEntry} {vis : List ℕ} (hpop : popMin dLt pq = none) :
    dijkstraStep adj en factor pq vis = Sum.inl (⊤, []) := by
  unfold dijkstraStep
  rw [hpop]

theorem dijkstraStep_skip {adj : AdjT} {en : ℕ} {factor : String}
    {pq rest : List DEntry} {vis : List ℕ} {g : Winf} {node : ℕ} {path : List ℕ}
    (hpop : popMin dLt pq = some ((g, node, path), rest)) (hv : node ∈ vis) :
    dijkstraStep adj en factor pq vis = Sum.inr (rest, vis) := by
  unfold dijkstraStep
  rw [hpop]
  simp [hv]

theorem dijkstraStep_goal {adj : AdjT} {en : ℕ} {factor : String}
    {pq rest : List DEntry} {vis : List ℕ} {g : Winf} {node : ℕ} {path : List ℕ}
    (hpop : popMin dLt pq = some ((g, node, path), rest)) (hv : node ∉ vis)
    (hen : node = en) :
    dijkstraStep adj en factor pq vis = Sum.inl (g, path ++ [node]) := by
  subst hen
  unfold dijkstraStep
  rw [hpop]
  simp [hv]

theorem dijkstraStep_settle {adj : AdjT} {en : ℕ} {factor : String}
    {pq rest : List DEntry} {vis : List ℕ} {g : Winf} {node : ℕ} {path : List ℕ}
    (hpop : popMin dLt pq = some ((g, node, path), rest)) (hv : node ∉ vis)
    (hen : node ≠ en) :
    dijkstraStep adj en factor pq vis =
      Sum.inr
        (rest ++ (adjGet adj node).map
          (fun nb => (g + get_edge_weight nb.2.2 factor, nb.1, path ++ [node])),
         node :: vis) := by
  unfold dijkstraStep
  rw [hpop]
  simp [hv, hen]

theorem astarLoop_succ (adj : AdjT) (en : ℕ) (factor : String) (h : ℕ → ℕ → ℚ)
    (n : ℕ) (pq : List AEntry) (vis : List ℕ) :
    astarLoop adj en factor h (n+1) pq vis =
      match astarStep adj en factor h pq vis with
      | Sum.inl r => some r
      | Sum.inr st => astarLoop adj en factor h n st.1 st.2 := rfl

theorem dijkstraLoop_succ (adj : AdjT) (en : ℕ) (factor : String)
    (n : ℕ) (pq : List DEntry) (vis : List ℕ) :
    dijkstraLoop adj en factor (n+1) pq vis =
      match dijkstraStep adj en factor pq vis with
      | Sum.inl r => some r
      | Sum.inr st => dijkstraLoop adj en factor n st.1 st.2 := rfl

/-!
The searches depend on the adjacency dict only through `adj.get`.
-/

theorem astarStep_congr {adj adj2 : AdjT} (hadj : ∀ n, adjGet adj n = adjGet adj2 n)
    (en : ℕ) (factor : String) (h : ℕ → ℕ → ℚ) (pq : List AEntry) (vis : List ℕ) :
    astarStep adj en factor h pq vis = astarStep adj2 en factor h pq vis := by
  unfold astarStep
  cases hpop : popMin aLt pq with
  | none => rfl
  | some pr =>
    obtain ⟨⟨f, g, node, path⟩, rest⟩ := pr
    by_cases hv : node ∈ vis
    · simp [hv]
    · by_cases hen : node = en
      · simp [hv, hen]
      · simp [hv, hen, hadj]

theorem dijkstraStep_congr {adj adj2 : AdjT} (hadj : ∀ n, adjGet adj n = adjGet adj2 n)
    (en : ℕ) (factor : String) (pq : List DEntry) (vis : List ℕ) :
    dijkstraStep adj en factor pq vis = dijkstraStep adj2 en factor pq vis := by
  unfold dijkstraStep
  cases hpop : popMin dLt pq with
  | none => rfl
  | some pr =>
    obtain ⟨⟨g, node, path⟩, rest⟩ := pr
    by_cases hv : node ∈ vis
    · simp [hv]
    · by_cases hen : node = en
      · simp [hv, hen]
      · simp [hv, hen, hadj]

theorem astarLoop_congr {adj adj2 : AdjT} (hadj : ∀ n, adjGet adj n = adjGet adj2 n)
    (en : ℕ) (factor : String) (h : ℕ → ℕ → ℚ) :
    ∀ (fuel : ℕ) (pq : List AEntry) (vis : List ℕ),
      astarLoop adj en factor h fuel pq vis = astarLoop adj2 en factor h fuel pq vis
  | 0, _, _ => rfl
  | fuel+1, pq, vis => by
    rw [astarLoop_succ, astarLoop_succ, astarStep_congr hadj en factor h pq vis]
    cases astarStep adj2 en factor h pq vis with
    | inl r => rfl
    | inr st => exact astarLoop_congr hadj en factor h fuel st.1 st.2

theorem dijkstraLoop_congr {adj adj2 : AdjT} (hadj : ∀ n, adjGet adj n = adjGet adj2 n)
    (en : ℕ) (factor : String) :
    ∀ (fuel : ℕ) (pq : List DEntry) (vis : List ℕ),
      dijkstraLoop adj en factor fuel pq vis = dijkstraLoop adj2 en factor fuel pq vis
  | 0, _, _ => rfl
  | fuel+1, pq, vis => by
    rw [dijkstraLoop_succ, dijkstraLoop_succ, dijkstraStep_congr hadj en factor pq vis]
    cases dijkstraStep adj2 en factor pq vis with
    | inl r => rfl
    | inr st => exact dijkstraLoop_congr hadj en factor fuel st.1 st.2

/-!
Termination: the fuel supplied by `searchFuel` always suffices.
-/

theorem restEdges_mono {adj : AdjT} {vis vis2 : List ℕ}
    (hsub : ∀ y, y ∈ vis → y ∈ vis2) : restEdges adj vis2 ≤ restEdges adj vis := by
  induction adj with
  | nil => exact le_refl 0
  | cons kv tl ih =>
    unfold restEdges
    by_cases hk : kv.1 ∈ vis
    · rw [if_pos hk, if_pos (hsub _ hk)]
      omega
    · rw [if_neg hk]
      by_cases hk2 : kv.1 ∈ vis2
      · rw [if_pos hk2]
        omega
      · rw [if_neg hk2]
        omega

theorem restEdges_cons {adj : AdjT} {node : ℕ} {vis : List ℕ} (hnv : node ∉ vis) :
    (adjGet adj node).length + restEdges adj (node :: vis) ≤ restEdges adj vis := by
  induction adj with
  | nil => simp [adjGet, restEdges]
  | cons kv tl ih =>
    obtain ⟨k, l⟩ := kv
    unfold adjGet restEdges
    dsimp only
    by_cases hk : k = node
    · rw [if_pos hk, if_pos (by simp [hk]), if_neg (by rw [hk]; exact hnv)]
      have hm : restEdges tl (node :: vis) ≤ restEdges tl vis :=
        restEdges_mono (fun y hy => List.mem_cons_of_mem node hy)
      omega
    · rw [if_neg hk]
      have hiff : ((k : ℕ) ∈ node :: vis) ↔ k ∈ vis := by
        simp [List.mem_cons, hk]
      by_cases hk2 : k ∈ vis
      · rw [if_pos (hiff.mpr hk2), if_pos hk2]
        omega
      · rw [if_neg (fun hc => hk2 (hiff.mp hc)), if_neg hk2]
        omega

theorem astarLoop_some {adj : AdjT} {en : ℕ} {factor : String} {h : ℕ → ℕ → ℚ} :
    ∀ (n : ℕ) (pq : List AEntry) (vis : List ℕ),
      pq.length + restEdges adj vis < n →
      ∃ r, astarLoop adj en factor h n pq vis = some r := by
  intro n
  induction n with
  | zero => intro pq vis hm; omega
  | succ n ih =>
    intro pq vis hm
    cases hpop : popMin aLt pq with
    | none =>
      exact ⟨(⊤, []), by rw [astarLoop_succ, astarStep_none hpop]⟩
    | some pr =>
      obtain ⟨⟨f, g, node, path⟩, rest⟩ := pr
      have hlen : pq.length = rest.length + 1 := by
        simpa using (popMin_perm aLt hpop).length_eq
      by_cases hv : node ∈ vis
      · obtain ⟨r, hr⟩ := ih rest vis (by omega)
        exact ⟨r, by rw [astarLoop_succ, astarStep_skip hpop hv]; exact hr⟩
      · by_cases hen : node = en
        · exact ⟨(g, path ++ [node]), by rw [astarLoop_succ, astarStep_goal hpop hv hen]⟩
        · have hre : (adjGet adj node).length + restEdges adj (node :: vis) ≤
              restEdges adj vis := restEdges_cons hv
          obtain ⟨r, hr⟩ := ih
            (rest ++ (adjGet adj node).map
              (fun nb =>
                (g + get_edge_weight nb.2.2 factor + ((h nb.1 en : ℚ) : Winf),
                 g + get_edge_weight nb.2.2 factor, nb.1, path ++ [node])))
            (node :: vis)
            (by simp only [List.length_append, List.length_map]; omega)
          exact ⟨r, by rw [astarLoop_succ, astarStep_settle hpop hv hen]; exact hr⟩

/-- `astar` always returns a value: the fuel bound is sufficient. -/
theorem astar_total (adj : AdjT) (start en : ℕ) (factor : String) (h : ℕ → ℕ → ℚ) :
    ∃ r, astar adj start en factor h = some r := by
  unfold astar searchFuel
  exact astarLoop_some _ _ _ (by simp [restEdges_mono]; omega)

/-!
With the uniformly zero heuristic, `astar` is step-for-step the same
computation as `dijkstra`: every frontier entry `(cost, node, path)`
corresponds to `(cost + 0, cost, node, path)`.
-/

/-- The `astar` entry corresponding to a `dijkstra` entry under the zero
heuristic. -/
def dToA (d : DEntry) : AEntry :=
  (d.1 + (((0 : ℚ) : Winf)), d.1, d.2.1, d.2.2)

theorem aLt_dToA (x y : DEntry) : aLt (dToA x) (dToA y) ↔ dLt x y := by
  unfold aLt dLt dToA
  dsimp only
  rw [WithTop.coe_zero, add_zero, add_zero]
  by_cases heq : x.1 = y.1
  · simp [heq, lt_irrefl]
  · simp [heq]

theorem selectMin_map_dToA : ∀ (l : List DEntry) (best : DEntry),
    selectMin aLt (dToA best) (l.map dToA) =
      (dToA (selectMin dLt best l).1, (selectMin dLt best l).2.map dToA)
  | [], best => rfl
  | e :: rest, best => by
    by_cases hlt : dLt e best
    · simp only [List.map_cons, selectMin, if_pos ((aLt_dToA e best).mpr hlt), if_pos hlt]
      rw [selectMin_map_dToA rest e]
    · simp only [List.map_cons, selectMin,
        if_neg (fun hc => hlt ((aLt_dToA e best).mp hc)), if_neg hlt]
      rw [selectMin_map_dToA rest best]

theorem popMin_map_dToA (pq : List DEntry) :
    popMin aLt (pq.map dToA) =
      (popMin dLt pq).map (fun pr => (dToA pr.1, pr.2.map dToA)) := by
  cases pq with
  | nil => rfl
  | cons e rest => simp [popMin, selectMin_map_dToA rest e]

theorem astarStep_zero (adj : AdjT) (en : ℕ) (factor : String)
    (pq : List DEntry) (vis : List ℕ) :
    astarStep adj en factor (fun _ _ => 0) (pq.map dToA) vis =
      match dijkstraStep adj en factor pq vis with
      | Sum.inl r => Sum.inl r
      | Sum.inr st => Sum.inr (st.1.map dToA, st.2) := by
  unfold astarStep dijkstraStep
  rw [popMin_map_dToA]
  cases hpop : popMin dLt pq with
  | none => rfl
  | some pr =>
    obtain ⟨⟨g, node, path⟩, rest⟩ := pr
    dsimp only [Option.map, dToA]
    by_cases hv : node ∈ vis
    · simp only [if_pos hv]
    · by_cases hen : node = en
      · simp only [if_neg hv, if_pos hen]
      · simp only [if_neg hv, if_neg hen]
        rw [List.map_append, List.map_map]
        rfl

theorem astarLoop_zero (adj : AdjT) (en : ℕ) (factor : String) :
    ∀ (fuel : ℕ) (pq : List DEntry) (vis : List ℕ),
      astarLoop adj en factor (fun _ _ => 0) fuel (pq.map dToA) vis =
        dijkstraLoop adj en factor fuel pq vis
  | 0, _, _ => rfl
  | fuel+1, pq, vis => by
    rw [astarLoop_succ, dijkstraLoop_succ, astarStep_zero]
    cases dijkstraStep adj en factor pq vis with
    | inl r => rfl
    | inr st => exact astarLoop_zero adj en factor fuel st.1 st.2

/-- `astar` with the uniformly zero heuristic is the same function as
`dijkstra` (same cost and same path). -/
theorem astar_zero_eq (adj : AdjT) (start en : ℕ) (factor : String) :
    astar adj start en factor (fun _ _ => 0) = dijkstra adj start en factor := by
  unfold astar dijkstra
  have hinit : [((0 : Winf) + ((((0 : ℚ)) : ℚ) : Winf), (0 : Winf), start, ([] : List ℕ))]
      = ([((0 : Winf), start, ([] : List ℕ))] : List DEntry).map dToA := rfl
  rw [hinit, astarLoop_zero]

/-!
Basic loop invariant: every frontier entry records a real path whose
prefix lies in the visited set, the start is available, settled nodes
keep a frontier entry on every edge leaving the settled region, and the
goal is never settled.  It holds for every heuristic and every weight
(no non-negativity needed).
-/

structure InvB (adj : AdjT) (factor : String) (start en : ℕ)
    (pq : List AEntry) (vis : List ℕ) : Prop where
  paths : ∀ f g n p, (f, g, n, p) ∈ pq →
    IsPath adj factor start n (p ++ [n]) g ∧ (∀ v ∈ p, v ∈ vis) ∧
      p.Nodup ∧ (n ∉ vis → n ∉ p)
  start_mem : start ∈ vis ∨ ∃ f g p, (f, g, start, p) ∈ pq
  frontier : ∀ v ∈ vis, ∀ t w e, (t, w, e) ∈ adjGet adj v → t ∉ vis →
    ∃ f g p, (f, g, t, p) ∈ pq
  goal_not : en ∉ vis

theorem invB_init (adj : AdjT) (factor : String) (start en : ℕ) (f0 : Winf) :
    InvB adj factor start en [(f0, 0, start, [])] [] := by
  refine ⟨?_, ?_, ?_, ?_⟩
  · intro f g n p hm
    simp only [List.mem_singleton, Prod.mk.injEq] at hm
    obtain ⟨-, hg, hn, hp⟩ := hm
    subst hg
    subst hn
    subst hp
    exact ⟨IsPath.single _, by simp, by simp, by simp⟩
  · exact Or.inr ⟨f0, 0, [], List.mem_singleton.mpr rfl⟩
  · intro v hv
    simp at hv
  · simp

theorem invB_skip {adj : AdjT} {factor : String} {start en : ℕ}
    {pq rest : List AEntry} {vis : List ℕ} {f g : Winf} {n : ℕ} {p : List ℕ}
    (inv : InvB adj factor start en pq vis)
    (hpop : popMin aLt pq = some ((f, g, n, p), rest)) (hv : n ∈ vis) :
    InvB adj factor start en rest vis := by
  have hmem : ∀ x : AEntry, x ∈ rest → x ∈ pq := fun x hx =>
    (popMin_perm aLt hpop).mem_iff.mpr (List.mem_cons_of_mem _ hx)
  have hsplit : ∀ x : AEntry, x ∈ pq → x = (f, g, n, p) ∨ x ∈ rest := fun x hx =>
    List.mem_cons.mp ((popMin_perm aLt hpop).mem_iff.mp hx)
  refine ⟨?_, ?_, ?_, inv.goal_not⟩
  · intro f2 g2 n2 p2 hm
    exact inv.paths f2 g2 n2 p2 (hmem _ hm)
  · rcases inv.start_mem with hs | ⟨f2, g2, p2, hm⟩
    · exact Or.inl hs
    · rcases hsplit _ hm with heq | hr
      · have : start = n := by
          have := congrArg (fun x : AEntry => x.2.2.1) heq
          simpa using this
        exact Or.inl (this ▸ hv)
      · exact Or.inr ⟨f2, g2, p2, hr⟩
  · intro v hvv t w e hedge ht
    obtain ⟨f2, g2, p2, hm⟩ := inv.frontier v hvv t w e hedge ht
    rcases hsplit _ hm with heq | hr
    · have : t = n := by
        have := congrArg (fun x : AEntry => x.2.2.1) heq
        simpa using this
      exact absurd (this ▸ hv) ht
    · exact ⟨f2, g2, p2, hr⟩

theorem nodup_concat {p : List ℕ} {n : ℕ} (hnd : p.Nodup) (hnp : n ∉ p) :
    (p ++ [n]).Nodup := by
  rw [List.nodup_append]
  exact ⟨hnd, List.nodup_singleton n, by
    intro a ha hb
    rw [List.mem_singleton] at hb
    exact hnp (hb ▸ ha)⟩

theorem invB_settle {adj : AdjT} {factor : String} {start en : ℕ} {h : ℕ → ℕ → ℚ}
    {pq rest : List AEntry} {vis : List ℕ} {f g : Winf} {n : ℕ} {p : List ℕ}
    (inv : InvB adj factor start en pq vis)
    (hpop : popMin aLt pq = some ((f, g, n, p), rest)) (hv : n ∉ vis) (hen : n ≠ en) :
    InvB adj factor start en
      (rest ++ (adjGet adj n).map
        (fun nb =>
          (g + get_edge_weight nb.2.2 factor + ((h nb.1 en : ℚ) : Winf),
           g + get_edge_weight nb.2.2 factor, nb.1, p ++ [n])))
      (n :: vis) := by
  have hmem : ∀ x : AEntry, x ∈ rest → x ∈ pq := fun x hx =>
    (popMin_perm aLt hpop).mem_iff.mpr (List.mem_cons_of_mem _ hx)
  have hsplit : ∀ x : AEntry, x ∈ pq → x = (f, g, n, p) ∨ x ∈ rest := fun x hx =>
    List.mem_cons.mp ((popMin_perm aLt hpop).mem_iff.mp hx)
  obtain ⟨hpath, hsub, hnd, hnp⟩ := inv.paths f g n p
    ((popMin_perm aLt hpop).mem_iff.mpr (List.mem_cons_self _ _))
  have hnp2 : n ∉ p := hnp hv
  refine ⟨?_, ?_, ?_, ?_⟩
  · intro f2 g2 n2 p2 hm
    rcases List.mem_append.mp hm with hr | hpush
    · obtain ⟨h1, h2, h3, h4⟩ := inv.paths f2 g2 n2 p2 (hmem _ hr)
      refine ⟨h1, fun v hvp => List.mem_cons_of_mem n (h2 v hvp), h3, ?_⟩
      intro hn2
      exact h4 (fun hc => hn2 (List.mem_cons_of_mem n hc))
    · obtain ⟨nb, hnb, heq⟩ := List.mem_map.mp hpush
      obtain ⟨t, w, e⟩ := nb
      simp only [Prod.mk.injEq] at heq
      obtain ⟨hf2, hg2, hn2, hp2⟩ := heq
      subst hf2
      subst hg2
      subst hn2
      subst hp2
      refine ⟨hpath.append_edge hnb, ?_, nodup_concat hnd hnp2, ?_⟩
      · intro v hvp
        rcases List.mem_append.mp hvp with hvp | hvp
        · exact List.mem_cons_of_mem n (hsub v hvp)
        · rw [List.mem_singleton] at hvp
          rw [hvp]
          exact List.mem_cons_self n vis
      · intro ht hcon
        have ht2 : t ≠ n ∧ t ∉ vis := by
          constructor
          · intro hc
            exact ht (hc ▸ List.mem_cons_self n vis)
          · intro hc
            exact ht (List.mem_cons_of_mem n hc)
        rcases List.mem_append.mp hcon with hc | hc
        · exact ht2.2 (hsub t hc)
        · rw [List.mem_singleton] at hc
          exact ht2.1 hc
  · by_cases hs : start = n
    · exact Or.inl (hs ▸ List.mem_cons_self n vis)
    · rcases inv.start_mem with hsv | ⟨f2, g2, p2, hm⟩
      · exact Or.inl (List.mem_cons_of_mem n hsv)
      · rcases hsplit _ hm with heq | hr
        · have : start = n := by
            have := congrArg (fun x : AEntry => x.2.2.1) heq
            simpa using this
          exact absurd this hs
        · exact Or.inr ⟨f2, g2, p2, List.mem_append_left _ hr⟩
  · intro v hvv t w e hedge ht
    have ht2 : t ≠ n ∧ t ∉ vis := by
      constructor
      · intro hc
        exact ht (hc ▸ List.mem_cons_self n vis)
      · intro hc
        exact ht (List.mem_cons_of_mem n hc)
    rcases List.mem_cons.mp hvv with hvn | hvv
    · refine ⟨g + get_edge_weight e factor + ((h t en : ℚ) : Winf),
        g + get_edge_weight e factor, p ++ [n], List.mem_append_right _ ?_⟩
      rw [← hvn]
      exact List.mem_map.mpr ⟨(t, w, e), hedge, rfl⟩
    · obtain ⟨f2, g2, p2, hm⟩ := inv.frontier v hvv t w e hedge ht2.2
      rcases hsplit _ hm with heq | hr
      · have : t = n := by
          have := congrArg (fun x : AEntry => x.2.2.1) heq
          simpa using this
        exact absurd this ht2.1
      · exact ⟨f2, g2, p2, List.mem_append_left _ hr⟩
  · intro hc
    rcases List.mem_cons.mp hc with hc | hc
    · exact hen hc.symm
    · exact inv.goal_not hc

/-- Any path from a settled node to an unsettled node witnesses a
non-empty frontier. -/
theorem invB_cross {adj : AdjT} {factor : String} {start en : ℕ}
    {pq : List AEntry} {vis : List ℕ}
    (inv : InvB adj factor start en pq vis) {v T : ℕ} {pth : List ℕ} {c : Winf}
    (hp : IsPath adj factor v T pth c) :
    v ∈ vis → T ∉ vis → ∃ x : AEntry, x ∈ pq := by
  induction hp with
  | single y => exact fun hv hT => absurd hv hT
  | cons x w e hmem htail ih =>
    intro hv hT
    rename_i y z pp cc
    by_cases hy : y ∈ vis
    · exact ih hy hT
    · obtain ⟨f, g, p2, hm⟩ := inv.frontier x hv y w e hmem hy
      exact ⟨(f, g, y, p2), hm⟩

/-- If the frontier is empty and the goal is unsettled, the goal is
unreachable. -/
theorem invB_no_path {adj : AdjT} {factor : String} {start en : ℕ}
    {vis : List ℕ} (inv : InvB adj factor start en [] vis) :
    ∀ (pth : List ℕ) (c : Winf), ¬ IsPath adj factor start en pth c := by
  intro pth c hp
  by_cases hs : start ∈ vis
  · obtain ⟨x, hx⟩ := invB_cross inv hp hs inv.goal_not
    simp at hx
  · rcases inv.start_mem with hc | ⟨f, g, p, hm⟩
    · exact hs hc
    · simp at hm

/-- Basic postcondition of the `astar` loop: either the unreachable
result with no path existing, or a real simple path from start to goal. -/
theorem astarLoop_post_basic {adj : AdjT} {factor : String} {start en : ℕ}
    {h : ℕ → ℕ → ℚ} :
    ∀ (fuel : ℕ) (pq : List AEntry) (vis : List ℕ),
      InvB adj factor start en pq vis →
      ∀ r, astarLoop adj en factor h fuel pq vis = some r →
      (r = ((⊤ : Winf), ([] : List ℕ)) ∧
        ∀ (pth : List ℕ) (c : Winf), ¬ IsPath adj factor start en pth c) ∨
      (∃ c pth, r = (c, pth) ∧ IsPath adj factor start en pth c ∧ pth.Nodup) := by
  intro fuel
  induction fuel with
  | zero => intro pq vis inv r hr; simp [astarLoop] at hr
  | succ fuel ih =>
    intro pq vis inv r hr
    rw [astarLoop_succ] at hr
    cases hpop : popMin aLt pq with
    | none =>
      rw [astarStep_none hpop] at hr
      have hpq : pq = [] := (popMin_eq_none aLt).mp hpop
      subst hpq
      simp only [Option.some.injEq] at hr
      exact Or.inl ⟨hr.symm, invB_no_path inv⟩
    | some pr =>
      obtain ⟨⟨f, g, n, p⟩, rest⟩ := pr
      by_cases hv : n ∈ vis
      · rw [astarStep_skip hpop hv] at hr
        exact ih rest vis (invB_skip inv hpop hv) r hr
      · by_cases hen : n = en
        · rw [astarStep_goal hpop hv hen] at hr
          simp only [Option.some.injEq] at hr
          obtain ⟨hpath, hsub, hnd, hnp⟩ := inv.paths f g n p
            ((popMin_perm aLt hpop).mem_iff.mpr (List.mem_cons_self _ _))
          refine Or.inr ⟨g, p ++ [n], hr.symm, ?_, nodup_concat hnd (hnp hv)⟩
          rw [← hen]
          exact hpath
        · rw [astarStep_settle hpop hv hen] at hr
          exact ih _ _ (invB_settle inv hpop hv hen) r hr

/-!
Quantitative loop invariant: a ghost assignment `dist` records, for every
settled node, the (attained and minimal) cost at which it was settled;
each frontier entry's estimate is its cost plus the heuristic at its
node, and every edge out of the settled region keeps its relaxation in
the frontier.  With a consistent heuristic this yields optimality of the
returned cost.
-/

structure InvQ (adj : AdjT) (factor : String) (h : ℕ → ℕ → ℚ) (start en : ℕ)
    (pq : List AEntry) (vis : List ℕ) (dist : ℕ → Winf) : Prop where
  fcost : ∀ f g n p, (f, g, n, p) ∈ pq → f = g + ((h n en : ℚ) : Winf)
  gpath : ∀ f g n p, (f, g, n, p) ∈ pq → IsPath adj factor start n (p ++ [n]) g
  settled : ∀ v ∈ vis, (∃ pth, IsPath adj factor start v pth (dist v)) ∧
    ∀ pth c, IsPath adj factor start v pth c → dist v ≤ c
  frontierQ : ∀ v ∈ vis, ∀ t w e, (t, w, e) ∈ adjGet adj v → t ∉ vis →
    ∃ p, (dist v + get_edge_weight e factor + ((h t en : ℚ) : Winf),
          dist v + get_edge_weight e factor, t, p) ∈ pq
  startQ : start ∉ vis → ((0 : Winf) + ((h start en : ℚ) : Winf), 0, start, []) ∈ pq
  goal_notQ : en ∉ vis

theorem invQ_init (adj : AdjT) (factor : String) (h : ℕ → ℕ → ℚ) (start en : ℕ) :
    InvQ adj factor h start en
      [((0 : Winf) + ((h start en : ℚ) : Winf), 0, start, [])] [] (fun _ => ⊤) := by
  refine ⟨?_, ?_, ?_, ?_, ?_, ?_⟩
  · intro f g n p hm
    simp only [List.mem_singleton, Prod.mk.injEq] at hm
    obtain ⟨hf, hg, hn, hp⟩ := hm
    subst hg
    subst hn
    exact hf
  · intro f g n p hm
    simp only [List.mem_singleton, Prod.mk.injEq] at hm
    obtain ⟨hf, hg, hn, hp⟩ := hm
    subst hg
    subst hn
    subst hp
    exact IsPath.single _
  · intro v hv
    simp at hv
  · intro v hv
    simp at hv
  · intro hs
    exact List.mem_singleton.mpr rfl
  · simp

/-- Quantitative crossing: a path leaving the settled region is covered
by a frontier entry whose estimate is below the path's estimate. -/
theorem invQ_cross {adj : AdjT} {factor : String} {h : ℕ → ℕ → ℚ} {start en : ℕ}
    {pq : List AEntry} {vis : List ℕ} {dist : ℕ → Winf}
    (hcons : ConsistentH adj factor h en)
    (inv : InvQ adj factor h start en pq vis dist) {v T : ℕ} {pth : List ℕ}
    {c : Winf} (hp : IsPath adj factor v T pth c) :
    v ∈ vis → T ∉ vis →
      ∃ x : AEntry, x ∈ pq ∧ x.1 ≤ dist v + c + ((h T en : ℚ) : Winf) := by
  induction hp with
  | single y =>
    exact fun hv hT => absurd hv hT
  | cons x w e hmem htail ih =>
    intro hv hT
    rename_i y z pp cc
    by_cases hy : y ∈ vis
    · obtain ⟨x2, hx2, hb⟩ := ih hy hT
      refine ⟨x2, hx2, hb.trans ?_⟩
      have hdy : dist y ≤ dist x + get_edge_weight e factor := by
        obtain ⟨⟨px, hpx⟩, -⟩ := inv.settled x hv
        exact (inv.settled y hy).2 _ _ (hpx.append_edge hmem)
      calc dist y + cc + ((h z en : ℚ) : Winf)
          ≤ (dist x + get_edge_weight e factor) + cc + ((h z en : ℚ) : Winf) := by
            exact add_le_add_right (add_le_add_right hdy cc) _
        _ = dist x + (get_edge_weight e factor + cc) + ((h z en : ℚ) : Winf) := by
            rw [add_assoc (dist x)]
    · obtain ⟨p2, hm2⟩ := inv.frontierQ x hv y w e hmem hy
      refine ⟨_, hm2, ?_⟩
      have hty := hcons.telescope htail
      calc dist x + get_edge_weight e factor + ((h y en : ℚ) : Winf)
          ≤ dist x + get_edge_weight e factor + (cc + ((h z en : ℚ) : Winf)) :=
            add_le_add_left hty _
        _ = dist x + (get_edge_weight e factor + cc) + ((h z en : ℚ) : Winf) := by
            rw [add_assoc, add_assoc, add_assoc]

/-- Any path from the start to an unsettled node is covered by a frontier
entry whose estimate is below the path cost plus the heuristic. -/
theorem invQ_cover {adj : AdjT} {factor : String} {h : ℕ → ℕ → ℚ} {start en : ℕ}
    {pq : List AEntry} {vis : List ℕ} {dist : ℕ → Winf}
    (hcons : ConsistentH adj factor h en)
    (inv : InvQ adj factor h start en pq vis dist) {T : ℕ} {pth : List ℕ}
    {c : Winf} (hp : IsPath adj factor start T pth c) (hT : T ∉ vis) :
    ∃ x : AEntry, x ∈ pq ∧ x.1 ≤ c + ((h T en : ℚ) : Winf) := by
  by_cases hs : start ∈ vis
  · obtain ⟨x, hx, hb⟩ := invQ_cross hcons inv hp hs hT
    refine ⟨x, hx, hb.trans ?_⟩
    have hds : dist start ≤ 0 := (inv.settled start hs).2 _ _ (IsPath.single start)
    calc dist start + c + ((h T en : ℚ) : Winf)
        = dist start + (c + ((h T en : ℚ) : Winf)) := by rw [add_assoc]
      _ ≤ 0 + (c + ((h T en : ℚ) : Winf)) := add_le_add_right hds _
      _ = c + ((h T en : ℚ) : Winf) := zero_add _
  · refine ⟨_, inv.startQ hs, ?_⟩
    have hts := hcons.telescope hp
    calc (0 : Winf) + ((h start en : ℚ) : Winf)
        = ((h start en : ℚ) : Winf) := zero_add _
      _ ≤ c + ((h T en : ℚ) : Winf) := hts

/-- The cost at which an unsettled node is popped is at most the cost of
any path from the start to it. -/
theorem invQ_popped_min {adj : AdjT} {factor : String} {h : ℕ → ℕ → ℚ}
    {start en : ℕ} {pq rest : List AEntry} {vis : List ℕ} {dist : ℕ → Winf}
    {f g : Winf} {n : ℕ} {p : List ℕ}
    (hcons : ConsistentH adj factor h en)
    (inv : InvQ adj factor h start en pq vis dist)
    (hpop : popMin aLt pq = some ((f, g, n, p), rest)) (hv : n ∉ vis) :
    ∀ (pth : List ℕ) (c : Winf), IsPath adj factor start n pth c → g ≤ c := by
  intro pth c hp
  obtain ⟨x, hx, hb⟩ := invQ_cover hcons inv hp hv
  have hmin : f ≤ x.1 := popMin_aLt_est hpop x hx
  have hf : f = g + ((h n en : ℚ) : Winf) := inv.fcost f g n p
    ((popMin_perm aLt hpop).mem_iff.mpr (List.mem_cons_self _ _))
  have hle : g + ((h n en : ℚ) : Winf) ≤ c + ((h n en : ℚ) : Winf) := by
    rw [← hf]
    exact hmin.trans hb
  exact (WithTop.add_le_add_iff_right (WithTop.coe_ne_top)).mp hle

theorem invQ_skip {adj : AdjT} {factor : String} {h : ℕ → ℕ → ℚ} {start en : ℕ}
    {pq rest : List AEntry} {vis : List ℕ} {dist : ℕ → Winf} {f g : Winf}
    {n : ℕ} {p : List ℕ}
    (inv : InvQ adj factor h start en pq vis dist)
    (hpop : popMin aLt pq = some ((f, g, n, p), rest)) (hv : n ∈ vis) :
    InvQ adj factor h start en rest vis dist := by
  have hmem : ∀ x : AEntry, x ∈ rest → x ∈ pq := fun x hx =>
    (popMin_perm aLt hpop).mem_iff.mpr (List.mem_cons_of_mem _ hx)
  have hsplit : ∀ x : AEntry, x ∈ pq → x = (f, g, n, p) ∨ x ∈ rest := fun x hx =>
    List.mem_cons.mp ((popMin_perm aLt hpop).mem_iff.mp hx)
  refine ⟨?_, ?_, inv.settled, ?_, ?_, inv.goal_notQ⟩
  · intro f2 g2 n2 p2 hm
    exact inv.fcost f2 g2 n2 p2 (hmem _ hm)
  · intro f2 g2 n2 p2 hm
    exact inv.gpath f2 g2 n2 p2 (hmem _ hm)
  · intro v hvv t w e hedge ht
    obtain ⟨p2, hm⟩ := inv.frontierQ v hvv t w e hedge ht
    rcases hsplit _ hm with heq | hr
    · have : t = n := by
        have := congrArg (fun x : AEntry => x.2.2.1) heq
        simpa using this
      exact absurd (this ▸ hv) ht
    · exact ⟨p2, hr⟩
  · intro hs
    rcases hsplit _ (inv.startQ hs) with heq | hr
    · have : start = n := by
        have := congrArg (fun x : AEntry => x.2.2.1) heq
        simpa using this
      exact absurd (this ▸ hv) hs
    · exact hr

theorem invQ_settle {adj : AdjT} {factor : String} {h : ℕ → ℕ → ℚ} {start en : ℕ}
    {pq rest : List AEntry} {vis : List ℕ} {dist : ℕ → Winf} {f g : Winf}
    {n : ℕ} {p : List ℕ}
    (hcons : ConsistentH adj factor h en)
    (inv : InvQ adj factor h start en pq vis dist)
    (hpop : popMin aLt pq = some ((f, g, n, p), rest)) (hv : n ∉ vis) (hen : n ≠ en) :
    InvQ adj factor h start en
      (rest ++ (adjGet adj n).map
        (fun nb =>
          (g + get_edge_weight nb.2.2 factor + ((h nb.1 en : ℚ) : Winf),
           g + get_edge_weight nb.2.2 factor, nb.1, p ++ [n])))
      (n :: vis) (Function.update dist n g) := by
  have hmem : ∀ x : AEntry, x ∈ rest → x ∈ pq := fun x hx =>
    (popMin_perm aLt hpop).mem_iff.mpr (List.mem_cons_of_mem _ hx)
  have hsplit : ∀ x : AEntry, x ∈ pq → x = (f, g, n, p) ∨ x ∈ rest := fun x hx =>
    List.mem_cons.mp ((popMin_perm aLt hpop).mem_iff.mp hx)
  have hpmem : ((f, g, n, p) : AEntry) ∈ pq :=
    (popMin_perm aLt hpop).mem_iff.mpr (List.mem_cons_self _ _)
  have hpath : IsPath adj factor start n (p ++ [n]) g := inv.gpath f g n p hpmem
  have hmin : ∀ (pth : List ℕ) (c : Winf), IsPath adj factor start n pth c → g ≤ c :=
    invQ_popped_min hcons inv hpop hv
  have hdn : Function.update dist n g n = g := Function.update_same n g dist
  have hdv : ∀ v, v ≠ n → Function.update dist n g v = dist v := fun v hvn =>
    Function.update_noteq hvn g dist
  refine ⟨?_, ?_, ?_, ?_, ?_, ?_⟩
  · intro f2 g2 n2 p2 hm
    rcases List.mem_append.mp hm with hr | hpush
    · exact inv.fcost f2 g2 n2 p2 (hmem _ hr)
    · obtain ⟨nb, hnb, heq⟩ := List.mem_map.mp hpush
      obtain ⟨t, w, e⟩ := nb
      simp only [Prod.mk.injEq] at heq
      obtain ⟨hf2, hg2, hn2, hp2⟩ := heq
      subst hf2
      subst hg2
      subst hn2
      rfl
  · intro f2 g2 n2 p2 hm
    rcases List.mem_append.mp hm with hr | hpush
    · exact inv.gpath f2 g2 n2 p2 (hmem _ hr)
    · obtain ⟨nb, hnb, heq⟩ := List.mem_map.mp hpush
      obtain ⟨t, w, e⟩ := nb
      simp only [Prod.mk.injEq] at heq
      obtain ⟨hf2, hg2, hn2, hp2⟩ := heq
      subst hf2
      subst hg2
      subst hn2
      subst hp2
      exact hpath.append_edge hnb
  · intro v hvv
    rcases List.mem_cons.mp hvv with hvn | hvv
    · subst hvn
      rw [hdn]
      exact ⟨⟨p ++ [v], hpath⟩, hmin⟩
    · have hne : v ≠ n := fun hc => hv (hc ▸ hvv)
      rw [hdv v hne]
      exact inv.settled v hvv
  · intro v hvv t w e hedge ht
    have ht2 : t ≠ n ∧ t ∉ vis := by
      constructor
      · intro hc
        exact ht (hc ▸ List.mem_cons_self n vis)
      · intro hc
        exact ht (List.mem_cons_of_mem n hc)
    rcases List.mem_cons.mp hvv with hvn | hvv
    · subst hvn
      rw [hdn]
      refine ⟨p ++ [v], List.mem_append_right _ ?_⟩
      exact List.mem_map.mpr ⟨(t, w, e), hedge, rfl⟩
    · have hne : v ≠ n := fun hc => hv (hc ▸ hvv)
      rw [hdv v hne]
      obtain ⟨p2, hm⟩ := inv.frontierQ v hvv t w e hedge ht2.2
      rcases hsplit _ hm with heq | hr
      · have : t = n := by
          have := congrArg (fun x : AEntry => x.2.2.1) heq
          simpa using this
        exact absurd this ht2.1
      · exact ⟨p2, List.mem_append_left _ hr⟩
  · intro hs
    have hs2 : start ≠ n ∧ start ∉ vis := by
      constructor
      · intro hc
        exact hs (hc ▸ List.mem_cons_self n vis)
      · intro hc
        exact hs (List.mem_cons_of_mem n hc)
    rcases hsplit _ (inv.startQ hs2.2) with heq | hr
    · have : start = n := by
        have := congrArg (fun x : AEntry => x.2.2.1) heq
        simpa using this
      exact absurd this hs2.1
    · exact List.mem_append_left _ hr
  · intro hc
    rcases List.mem_cons.mp hc with hc | hc
    · exact hen hc.symm
    · exact inv.goal_notQ hc

/-- Minimality postcondition of the `astar` loop under a consistent
heuristic: the returned cost is a lower bound of every path cost. -/
theorem astarLoop_post_min {adj : AdjT} {factor : String} {h : ℕ → ℕ → ℚ}
    {start en : ℕ} (hcons : ConsistentH adj factor h en) :
    ∀ (fuel : ℕ) (pq : List AEntry) (vis : List ℕ) (dist : ℕ → Winf),
      InvQ adj factor h start en pq vis dist →
      ∀ c pth, astarLoop adj en factor h fuel pq vis = some (c, pth) →
      ∀ (pth2 : List ℕ) (c2 : Winf), IsPath adj factor start en pth2 c2 → c ≤ c2 := by
  intro fuel
  induction fuel with
  | zero => intro pq vis dist inv c pth hr; simp [astarLoop] at hr
  | succ fuel ih =>
    intro pq vis dist inv c pth hr
    rw [astarLoop_succ] at hr
    cases hpop : popMin aLt pq with
    | none =>
      rw [astarStep_none hpop] at hr
      have hpq : pq = [] := (popMin_eq_none aLt).mp hpop
      subst hpq
      intro pth2 c2 hp2
      obtain ⟨x, hx, -⟩ := invQ_cover hcons inv hp2 inv.goal_notQ
      simp at hx
    | some pr =>
      obtain ⟨⟨f, g, n, p⟩, rest⟩ := pr
      by_cases hv : n ∈ vis
      · rw [astarStep_skip hpop hv] at hr
        exact ih rest vis dist (invQ_skip inv hpop hv) c pth hr
      · by_cases hen : n = en
        · rw [astarStep_goal hpop hv hen] at hr
          simp only [Option.some.injEq, Prod.mk.injEq] at hr
          intro pth2 c2 hp2
          rw [← hr.1]
          exact invQ_popped_min hcons inv hpop hv pth2 c2 (hen ▸ hp2)
        · rw [astarStep_settle hpop hv hen] at hr
          exact ih _ _ _ (invQ_settle hcons inv hpop hv hen) c pth hr

/-!
Composite correctness statements for the two entry points.
-/

/-- The zero heuristic is consistent on any view with non-negative
weights. -/
theorem consistentH_zero {adj : AdjT} {factor : String} {en : ℕ}
    (hnn : NonnegWeights adj factor) :
    ConsistentH adj factor (fun _ _ => 0) en := by
  intro kv hkv nb hnb
  have h0 := hnn kv hkv nb hnb
  simpa using h0

theorem astar_post_basic {adj : AdjT} {factor : String} {start en : ℕ}
    {h : ℕ → ℕ → ℚ} {r : Winf × List ℕ} (hr : astar adj start en factor h = some r) :
    (r = ((⊤ : Winf), ([] : List ℕ)) ∧
      ∀ (pth : List ℕ) (c : Winf), ¬ IsPath adj factor start en pth c) ∨
    (∃ c pth, r = (c, pth) ∧ IsPath adj factor start en pth c ∧ pth.Nodup) :=
  astarLoop_post_basic (searchFuel adj) _ [] (invB_init adj factor start en _) r hr

theorem astar_post_min {adj : AdjT} {factor : String} {start en : ℕ}
    {h : ℕ → ℕ → ℚ} {c : Winf} {pth : List ℕ}
    (hcons : ConsistentH adj factor h en)
    (hr : astar adj start en factor h = some (c, pth)) :
    ∀ (pth2 : List ℕ) (c2 : Winf), IsPath adj factor start en pth2 c2 → c ≤ c2 :=
  astarLoop_post_min hcons (searchFuel adj) _ [] (fun _ => ⊤)
    (invQ_init adj factor h start en) c pth hr

/-- Full correctness of `astar` under a consistent heuristic on a
reachable goal: the returned pair is a simple path realising the minimum
cost. -/
theorem astar_opt {adj : AdjT} {factor : String} {start en : ℕ} {h : ℕ → ℕ → ℚ}
    (hcons : ConsistentH adj factor h en)
    (hreach : ∃ (pth : List ℕ) (c : Winf), IsPath adj factor start en pth c) :
    ∃ c pth, astar adj start en factor h = some (c, pth) ∧
      IsPath adj factor start en pth c ∧ pth.Nodup ∧
      ∀ (pth2 : List ℕ) (c2 : Winf), IsPath adj factor start en pth2 c2 → c ≤ c2 := by
  obtain ⟨r, hr⟩ := astar_total adj start en factor h
  rcases astar_post_basic hr with ⟨-, hnp⟩ | ⟨c, pth, hrc, hpath, hnd⟩
  · obtain ⟨pth, c, hp⟩ := hreach
    exact absurd hp (hnp pth c)
  · subst hrc
    exact ⟨c, pth, hr, hpath, hnd, astar_post_min hcons hr⟩

theorem dijkstra_total (adj : AdjT) (start en : ℕ) (factor : String) :
    ∃ r, dijkstra adj start en factor = some r := by
  rw [← astar_zero_eq]
  exact astar_total adj start en factor (fun _ _ => 0)

theorem dijkstra_post_basic {adj : AdjT} {factor : String} {start en : ℕ}
    {r : Winf × List ℕ} (hr : dijkstra adj start en factor = some r) :
    (r = ((⊤ : Winf), ([] : List ℕ)) ∧
      ∀ (pth : List ℕ) (c : Winf), ¬ IsPath adj factor start en pth c) ∨
    (∃ c pth, r = (c, pth) ∧ IsPath adj factor start en pth c ∧ pth.Nodup) := by
  rw [← astar_zero_eq] at hr
  exact astar_post_basic hr

/-- Full correctness of `dijkstra` on non-negative weights and a
reachable goal. -/
theorem dijkstra_opt {adj : AdjT} {factor : String} {start en : ℕ}
    (hnn : NonnegWeights adj factor)
    (hreach : ∃ (pth : List ℕ) (c : Winf), IsPath adj factor start en pth c) :
    ∃ c pth, dijkstra adj start en factor = some (c, pth) ∧
      IsPath adj factor start en pth c ∧ pth.Nodup ∧
      ∀ (pth2 : List ℕ) (c2 : Winf), IsPath adj factor start en pth2 c2 → c ≤ c2 := by
  rw [← astar_zero_eq]
  exact astar_opt (consistentH_zero hnn) hreach

theorem astarLoop_succ_inr {adj : AdjT} {en : ℕ} {factor : String} {h : ℕ → ℕ → ℚ}
    {pq pq2 : List AEntry} {vis vis2 : List ℕ} {n : ℕ}
    (hstep : astarStep adj en factor h pq vis = Sum.inr (pq2, vis2)) :
    astarLoop adj en factor h (n+1) pq vis = astarLoop adj en factor h n pq2 vis2 := by
  rw [astarLoop_succ, hstep]

theorem astarLoop_succ_inl {adj : AdjT} {en : ℕ} {factor : String} {h : ℕ → ℕ → ℚ}
    {pq : List AEntry} {vis : List ℕ} {n : ℕ} {r : Winf × List ℕ}
    (hstep : astarStep adj en factor h pq vis = Sum.inl r) :
    astarLoop adj en factor h (n+1) pq vis = some r := by
  rw [astarLoop_succ, hstep]

theorem dijkstraLoop_succ_inr {adj : AdjT} {en : ℕ} {factor : String}
    {pq pq2 : List DEntry} {vis vis2 : List ℕ} {n : ℕ}
    (hstep : dijkstraStep adj en factor pq vis = Sum.inr (pq2, vis2)) :
    dijkstraLoop adj en factor (n+1) pq vis = dijkstraLoop adj en factor n pq2 vis2 := by
  rw [dijkstraLoop_succ, hstep]

theorem dijkstraLoop_succ_inl {adj : AdjT} {en : ℕ} {factor : String}
    {pq : List DEntry} {vis : List ℕ} {n : ℕ} {r : Winf × List ℕ}
    (hstep : dijkstraStep adj en factor pq vis = Sum.inl r) :
    dijkstraLoop adj en factor (n+1) pq vis = some r := by
  rw [dijkstraLoop_succ, hstep]

/-!
Concrete graphs used by counterexamples and witnesses.

The counterexample graph (nodes 0,1,2,3; directed edges 0->1 of length 3,
0->2 of length 1, 2->1 of length 1, 1->3 of length 10) together with the
heuristic that estimates 11 at node 2 and 0 elsewhere: the heuristic is
admissible (11 is exactly the distance from node 2 to node 3) but not
consistent across the edge 0->2, and `astar` settles node 1 via the
direct edge before the cheaper route through node 2 is found.
-/

def cexEdge (s t : ℕ) (d : ℚ) : Edge :=
  ⟨s, t, "car", some d, some d, some d, some d, some (1/2), true⟩

def cexNbr (s t : ℕ) (d : ℚ) : Nbr := (t, ((d : ℚ) : Winf), cexEdge s t d)

def cexAdj : AdjT :=
  [(0, [cexNbr 0 1 3, cexNbr 0 2 1]), (1, [cexNbr 1 3 10]), (2, [cexNbr 2 1 1])]

def cexH : ℕ → ℕ → ℚ := fun v _ => if v = 2 then 11 else 0

theorem cex_gew (s t : ℕ) (d : ℚ) :
    get_edge_weight (cexEdge s t d) "distance" = ((d : ℚ) : Winf) := by
  simp [get_edge_weight, cexEdge, magInf]

theorem cex_fuel : searchFuel cexAdj = 6 := rfl

theorem cex_pop0 :
    popMin aLt [((0 : Winf) + ((cexH 0 3 : ℚ) : Winf), 0, 0, ([] : List ℕ))]
      = some (((0 : Winf) + ((cexH 0 3 : ℚ) : Winf), 0, 0, ([] : List ℕ)), []) := rfl

theorem cex_step0 :
    astarStep cexAdj 3 "distance" cexH
      [((0 : Winf) + ((cexH 0 3 : ℚ) : Winf), 0, 0, ([] : List ℕ))] [] =
    Sum.inr ([(((3:ℚ) : Winf), ((3:ℚ) : Winf), 1, [0]),
              (((12:ℚ) : Winf), ((1:ℚ) : Winf), 2, [0])], [0]) := by
  rw [astarStep_settle cex_pop0 (by simp) (by decide)]
  norm_num [cexAdj, adjGet, cexNbr, cex_gew, cexH]

theorem cex_step1 :
    astarStep cexAdj 3 "distance" cexH
      [(((3:ℚ) : Winf), ((3:ℚ) : Winf), 1, [0]),
       (((12:ℚ) : Winf), ((1:ℚ) : Winf), 2, [0])] [0] =
    Sum.inr ([(((12:ℚ) : Winf), ((1:ℚ) : Winf), 2, [0]),
              (((13:ℚ) : Winf), ((13:ℚ) : Winf), 3, [0, 1])], [1, 0]) := by
  have hpop : popMin aLt
      [(((3:ℚ) : Winf), ((3:ℚ) : Winf), 1, [0]),
       (((12:ℚ) : Winf), ((1:ℚ) : Winf), 2, [0])] =
      some (((((3:ℚ) : Winf), ((3:ℚ) : Winf), 1, [0]) : AEntry),
        [(((12:ℚ) : Winf), ((1:ℚ) : Winf), 2, [0])]) := by
    norm_num [popMin, selectMin, aLt]
    decide
  rw [astarStep_settle hpop (by norm_num) (by norm_num)]
  norm_num [cexAdj, adjGet, cexNbr, cex_gew, cexH]

theorem cex_step2 :
    astarStep cexAdj 3 "distance" cexH
      [(((12:ℚ) : Winf), ((1:ℚ) : Winf), 2, [0]),
       (((13:ℚ) : Winf), ((13:ℚ) : Winf), 3, [0, 1])] [1, 0] =
    Sum.inr ([(((13:ℚ) : Winf), ((13:ℚ) : Winf), 3, [0, 1]),
              (((2:ℚ) : Winf), ((2:ℚ) : Winf), 1, [0, 2])], [2, 1, 0]) := by
  have hpop : popMin aLt
      [(((12:ℚ) : Winf), ((1:ℚ) : Winf), 2, [0]),
       (((13:ℚ) : Winf), ((13:ℚ) : Winf), 3, [0, 1])] =
      some (((((12:ℚ) : Winf), ((1:ℚ) : Winf), 2, [0]) : AEntry),
        [(((13:ℚ) : Winf), ((13:ℚ) : Winf), 3, [0, 1])]) := by
    norm_num [popMin, selectMin, aLt]
    decide
  rw [astarStep_settle hpop (by norm_num) (by norm_num)]
  norm_num [cexAdj, adjGet, cexNbr, cex_gew, cexH]

theorem cex_step3 :
    astarStep cexAdj 3 "distance" cexH
      [(((13:ℚ) : Winf), ((13:ℚ) : Winf), 3, [0, 1]),
       (((2:ℚ) : Winf), ((2:ℚ) : Winf), 1, [0, 2])] [2, 1, 0] =
    Sum.inr ([(((13:ℚ) : Winf), ((13:ℚ) : Winf), 3, [0, 1])], [2, 1, 0]) := by
  have hpop : popMin aLt
      [(((13:ℚ) : Winf), ((13:ℚ) : Winf), 3, [0, 1]),
       (((2:ℚ) : Winf), ((2:ℚ) : Winf), 1, [0, 2])] =
      some (((((2:ℚ) : Winf), ((2:ℚ) : Winf), 1, [0, 2]) : AEntry),
        [(((13:ℚ) : Winf), ((13:ℚ) : Winf), 3, [0, 1])]) := by
    norm_num [popMin, selectMin, aLt]
    decide
  rw [astarStep_skip hpop (by norm_num)]

theorem cex_pop4 :
    popMin aLt [((((13:ℚ) : Winf), ((13:ℚ) : Winf), 3, [0, 1]) : AEntry)] =
      some (((((13:ℚ) : Winf), ((13:ℚ) : Winf), 3, [0, 1]) : AEntry), []) := rfl

theorem cex_step4 :
    astarStep cexAdj 3 "distance" cexH
      [(((13:ℚ) : Winf), ((13:ℚ) : Winf), 3, [0, 1])] [2, 1, 0] =
    Sum.inl (((13:ℚ) : Winf), [0, 1, 3]) := by
  rw [astarStep_goal cex_pop4 (by norm_num) rfl]
  rfl

theorem cex_run : astar cexAdj 0 3 "distance" cexH = some (((13:ℚ) : Winf), [0, 1, 3]) := by
  unfold astar
  rw [cex_fuel]
  rw [show (6:ℕ) = 5+1 from rfl, astarLoop_succ_inr cex_step0]
  rw [show (5:ℕ) = 4+1 from rfl, astarLoop_succ_inr cex_step1]
  rw [show (4:ℕ) = 3+1 from rfl, astarLoop_succ_inr cex_step2]
  rw [show (3:ℕ) = 2+1 from rfl, astarLoop_succ_inr cex_step3]
  rw [show (2:ℕ) = 1+1 from rfl, astarLoop_succ_inl cex_step4]

theorem cex_nonneg : NonnegWeights cexAdj "distance" := by decide

theorem cex_from3 : ∀ (pth : List ℕ) (c : Winf),
    IsPath cexAdj "distance" 3 3 pth c → c = 0 := by
  intro pth c hp
  cases hp with
  | single => rfl
  | cons x w e hmem htail =>
    simp [cexAdj, adjGet] at hmem

theorem cex_from1 : ∀ (pth : List ℕ) (c : Winf),
    IsPath cexAdj "distance" 1 3 pth c → c = ((10:ℚ) : Winf) := by
  intro pth c hp
  cases hp with
  | cons x w e hmem htail =>
    rename_i y p c2
    simp only [cexAdj, adjGet, cexNbr] at hmem
    norm_num at hmem
    obtain ⟨hy, hw, he⟩ := hmem
    subst hy
    subst he
    rw [cex_gew, cex_from3 _ _ htail, add_zero]

theorem cex_from2 : ∀ (pth : List ℕ) (c : Winf),
    IsPath cexAdj "distance" 2 3 pth c → c = ((11:ℚ) : Winf) := by
  intro pth c hp
  cases hp with
  | cons x w e hmem htail =>
    rename_i y p c2
    simp only [cexAdj, adjGet, cexNbr] at hmem
    norm_num at hmem
    obtain ⟨hy, hw, he⟩ := hmem
    subst hy
    subst he
    rw [cex_gew, cex_from1 _ _ htail]
    norm_num

theorem cex_admissible : ∀ (v : ℕ) (pth : List ℕ) (c : Winf),
    IsPath cexAdj "distance" v 3 pth c → ((cexH v 3 : ℚ) : Winf) ≤ c := by
  intro v pth c hp
  by_cases hv : v = 2
  · subst hv
    rw [cex_from2 _ _ hp]
    simp [cexH]
  · have h0 : cexH v 3 = 0 := by simp [cexH, hv]
    rw [h0]
    simpa using IsPath.nonneg cex_nonneg hp

theorem cex_opt_path :
    IsPath cexAdj "distance" 0 3 [0, 2, 1, 3] ((12:ℚ) : Winf) := by
  have hm1 : ((3 : ℕ), ((10:ℚ) : Winf), cexEdge 1 3 10) ∈ adjGet cexAdj 1 := by
    simp [cexAdj, adjGet, cexNbr]
  have hm2 : ((1 : ℕ), ((1:ℚ) : Winf), cexEdge 2 1 1) ∈ adjGet cexAdj 2 := by
    simp [cexAdj, adjGet, cexNbr]
  have hm3 : ((2 : ℕ), ((1:ℚ) : Winf), cexEdge 0 2 1) ∈ adjGet cexAdj 0 := by
    simp [cexAdj, adjGet, cexNbr]
  have h1 : IsPath cexAdj "distance" 1 3 [1, 3]
      (get_edge_weight (cexEdge 1 3 10) "distance" + 0) :=
    IsPath.cons 1 _ _ hm1 (IsPath.single 3)
  have h2 : IsPath cexAdj "distance" 2 3 [2, 1, 3]
      (get_edge_weight (cexEdge 2 1 1) "distance" +
        (get_edge_weight (cexEdge 1 3 10) "distance" + 0)) :=
    IsPath.cons 2 _ _ hm2 h1
  have h3 : IsPath cexAdj "distance" 0 3 [0, 2, 1, 3]
      (get_edge_weight (cexEdge 0 2 1) "distance" +
        (get_edge_weight (cexEdge 2 1 1) "distance" +
          (get_edge_weight (cexEdge 1 3 10) "distance" + 0))) :=
    IsPath.cons 0 _ _ hm3 h2
  simp only [cex_gew] at h3
  norm_num at h3
  exact h3

/-!
Degenerate run: start equals goal.  The single initial entry is popped,
the start is not in the fresh visited set, the goal test fires before any
edge is expanded, and `(0, [start])` is returned whatever the adjacency
view or heuristic.
-/

theorem dijkstra_self (adj : AdjT) (x : ℕ) (factor : String) :
    dijkstra adj x x factor = some (0, [x]) := by
  unfold dijkstra
  rw [show searchFuel adj = (restEdges adj [] + 1) + 1 from rfl]
  have hpop : popMin dLt [((0 : Winf), x, ([] : List ℕ))]
      = some (((0 : Winf), x, ([] : List ℕ)), []) := rfl
  rw [dijkstraLoop_succ_inl (dijkstraStep_goal hpop (by simp) rfl)]
  rfl

theorem astar_self (adj : AdjT) (x : ℕ) (factor : String) (h : ℕ → ℕ → ℚ) :
    astar adj x x factor h = some (0, [x]) := by
  unfold astar
  rw [show searchFuel adj = (restEdges adj [] + 1) + 1 from rfl]
  have hpop : popMin aLt [((0 : Winf) + ((h x x : ℚ) : Winf), (0 : Winf), x, ([] : List ℕ))]
      = some (((0 : Winf) + ((h x x : ℚ) : Winf), (0 : Winf), x, ([] : List ℕ)), []) := rfl
  rw [astarLoop_succ_inl (astarStep_goal hpop (by simp) rfl)]
  rfl

/-!
A node that is absent from the adjacency dict behaves exactly as a node
stored with an empty neighbor list: `adj.get` is the only access path.
-/

theorem adjGet_no_key {adj : AdjT} {n : ℕ} (habs : ∀ kv ∈ adj, kv.1 ≠ n) :
    adjGet adj n = [] := by
  induction adj with
  | nil => rfl
  | cons kv tl ih =>
    obtain ⟨k, l⟩ := kv
    unfold adjGet
    rw [if_neg (habs (k, l) (List.mem_cons_self _ _))]
    exact ih (fun kv2 hkv2 => habs kv2 (List.mem_cons_of_mem _ hkv2))

theorem adjGet_absent {adj : AdjT} {x : ℕ} (habs : ∀ kv ∈ adj, kv.1 ≠ x) :
    ∀ n, adjGet ((x, ([] : List Nbr)) :: adj) n = adjGet adj n := by
  intro n
  by_cases hx : x = n
  · subst hx
    rw [adjGet_no_key habs]
    unfold adjGet
    rw [if_pos rfl]
  · conv_lhs => rw [adjGet]
    rw [if_neg hx]

theorem searchFuel_absent (adj : AdjT) (x : ℕ) :
    searchFuel ((x, ([] : List Nbr)) :: adj) = searchFuel adj := by
  simp [searchFuel, restEdges]

theorem dijkstra_absent {adj : AdjT} {x : ℕ} (habs : ∀ kv ∈ adj, kv.1 ≠ x)
    (start en : ℕ) (factor : String) :
    dijkstra ((x, ([] : List Nbr)) :: adj) start en factor =
      dijkstra adj start en factor := by
  unfold dijkstra
  rw [searchFuel_absent]
  exact dijkstraLoop_congr (adjGet_absent habs) en factor _ _ _

theorem astar_absent {adj : AdjT} {x : ℕ} (habs : ∀ kv ∈ adj, kv.1 ≠ x)
    (start en : ℕ) (factor : String) (h : ℕ → ℕ → ℚ) :
    astar ((x, ([] : List Nbr)) :: adj) start en factor h =
      astar adj start en factor h := by
  unfold astar
  rw [searchFuel_absent]
  exact astarLoop_congr (adjGet_absent habs) en factor h _ _ _

/-- The single-edge graph used by witnesses: one directed arc 0 -> 1 of
length 5. -/
def wAdj : AdjT := [(0, [cexNbr 0 1 5])]

/-- An undirected edge 0 - 1 stored as two arcs, as `build_adjacency`
would mirror it; used to exhibit a push toward an already-finalized
neighbor. -/
def undirAdj : AdjT := [(0, [cexNbr 0 1 5]), (1, [cexNbr 1 0 5])]

theorem undir_step0 :
    dijkstraStep undirAdj 2 "distance" [((0 : Winf), 0, ([] : List ℕ))] [] =
      Sum.inr ([(((5:ℚ) : Winf), 1, [0])], [0]) := by
  have hpop : popMin dLt [((0 : Winf), 0, ([] : List ℕ))]
      = some (((0 : Winf), 0, ([] : List ℕ)), []) := rfl
  rw [dijkstraStep_settle hpop (by simp) (by decide)]
  norm_num [undirAdj, adjGet, cexNbr, cex_gew]

theorem undir_step1 :
    dijkstraStep undirAdj 2 "distance" [(((5:ℚ) : Winf), 1, [0])] [0] =
      Sum.inr ([(((10:ℚ) : Winf), 0, [0, 1])], [1, 0]) := by
  have hpop : popMin dLt [((((5:ℚ) : Winf), 1, [0]) : DEntry)]
      = some (((((5:ℚ) : Winf), 1, [0]) : DEntry), []) := rfl
  rw [dijkstraStep_settle hpop (by simp) (by decide)]
  norm_num [undirAdj, adjGet, cexNbr, cex_gew]

/-!
The ten claims.
-/

/-- Claim C1: on every triple-shaped adjacency view whose edge weights
under the chosen metric are all non-negative, with the goal reachable
from the start, `dijkstra` returns a pair `(cost, path)` where `path` is
a path from start to goal in the view and `cost` is minimal among all
paths from start to goal under that metric. -/
theorem claim_C1 (adj : AdjT) (start en : ℕ) (factor : String)
    (hnn : NonnegWeights adj factor)
    (hreach : ∃ (pth : List ℕ) (c : Winf), IsPath adj factor start en pth c) :
    ∃ c pth, dijkstra adj start en factor = some (c, pth) ∧
      IsPath adj factor start en pth c ∧
      ∀ (pth2 : List ℕ) (c2 : Winf), IsPath adj factor start en pth2 c2 → c ≤ c2 := by
  obtain ⟨c, pth, h1, h2, h3, h4⟩ := dijkstra_opt hnn hreach
  exact ⟨c, pth, h1, h2, h4⟩

/-- Witness for C1 on the single-edge graph. -/
theorem claim_C1_witness :
    ∃ c pth, dijkstra wAdj 0 1 "distance" = some (c, pth) ∧
      IsPath wAdj "distance" 0 1 pth c ∧
      ∀ (pth2 : List ℕ) (c2 : Winf), IsPath wAdj "distance" 0 1 pth2 c2 → c ≤ c2 :=
  claim_C1 wAdj 0 1 "distance" (by decide)
    ⟨[0, 1], get_edge_weight (cexEdge 0 1 5) "distance" + 0,
      IsPath.cons 0 ((5:ℚ) : Winf) (cexEdge 0 1 5)
        (by simp [wAdj, adjGet, cexNbr]) (IsPath.single 1)⟩

/-- Claim C2 counterexample: on the four-node graph `cexAdj` the
heuristic `cexH` never overestimates the true remaining cost to goal 3
(it is admissible), all weights are non-negative, yet `astar` returns
cost 13 while a path of cost 12 exists, so the claimed optimality fails
as stated. -/
theorem claim_C2_counterexample :
    NonnegWeights cexAdj "distance" ∧
    (∀ (v : ℕ) (pth : List ℕ) (c : Winf),
      IsPath cexAdj "distance" v 3 pth c → ((cexH v 3 : ℚ) : Winf) ≤ c) ∧
    astar cexAdj 0 3 "distance" cexH = some (((13:ℚ) : Winf), [0, 1, 3]) ∧
    IsPath cexAdj "distance" 0 3 [0, 2, 1, 3] ((12:ℚ) : Winf) ∧
    ¬ ((13:ℚ) : Winf) ≤ ((12:ℚ) : Winf) :=
  ⟨cex_nonneg, cex_admissible, cex_run, cex_opt_path, by decide⟩

/-- Claim C2 (amended): for every adjacency view with non-negative
weights and every heuristic that is consistent along the view's edges
toward the goal (hence in particular a lower bound on the remaining
cost), with the goal reachable, `astar` returns the minimum-cost path. -/
theorem claim_C2_amended (adj : AdjT) (start en : ℕ) (factor : String)
    (h : ℕ → ℕ → ℚ) (hnn : NonnegWeights adj factor)
    (hcons : ConsistentH adj factor h en)
    (hreach : ∃ (pth : List ℕ) (c : Winf), IsPath adj factor start en pth c) :
    ∃ c pth, astar adj start en factor h = some (c, pth) ∧
      IsPath adj factor start en pth c ∧
      ∀ (pth2 : List ℕ) (c2 : Winf), IsPath adj factor start en pth2 c2 → c ≤ c2 := by
  obtain ⟨c, pth, h1, h2, h3, h4⟩ := astar_opt hcons hreach
  exact ⟨c, pth, h1, h2, h4⟩

/-- Witness for the amended C2 on the single-edge graph with the zero
heuristic (trivially consistent). -/
theorem claim_C2_amended_witness :
    ∃ c pth, astar wAdj 0 1 "distance" (fun _ _ => 0) = some (c, pth) ∧
      IsPath wAdj "distance" 0 1 pth c ∧
      ∀ (pth2 : List ℕ) (c2 : Winf), IsPath wAdj "distance" 0 1 pth2 c2 → c ≤ c2 :=
  claim_C2_amended wAdj 0 1 "distance" (fun _ _ => 0) (by decide)
    (consistentH_zero (by decide))
    ⟨[0, 1], get_edge_weight (cexEdge 0 1 5) "distance" + 0,
      IsPath.cons 0 ((5:ℚ) : Winf) (cexEdge 0 1 5)
        (by simp [wAdj, adjGet, cexNbr]) (IsPath.single 1)⟩

/-- Claim C3: both search entry points raise
`ValueError: not enough values to unpack` on the pair-shaped adjacency
view that `build_adjacency` produces, as soon as a node with at least one
stored neighbor pair is expanded (here: one undirected edge 0 - 1,
searching 0 to 1).  The error branch is reached, not avoided. -/
theorem claim_C3 :
    dijkstraDyn (pairView (build_adjacency [cexEdge 0 1 5] false)) 0 1 "distance"
      = some (Except.error
          "ValueError: not enough values to unpack (expected 3, got 2)") ∧
    astarDyn (pairView (build_adjacency [cexEdge 0 1 5] false)) 0 1 "distance"
        (fun _ _ => 0)
      = some (Except.error
          "ValueError: not enough values to unpack (expected 3, got 2)") :=
  ⟨rfl, rfl⟩

/-- Claim C4: `astar` called with the uniformly zero heuristic returns
exactly the result of `dijkstra` on the same inputs (same cost, and in
fact the same path), for every adjacency view, start, goal and metric. -/
theorem claim_C4 (adj : AdjT) (start en : ℕ) (factor : String) :
    astar adj start en factor (fun _ _ => 0) = dijkstra adj start en factor :=
  astar_zero_eq adj start en factor

/-- Claim C5: on every finite adjacency view, for every start, goal,
metric and every heuristic function (no admissibility assumed), both
search variants terminate with a result. -/
theorem claim_C5 (adj : AdjT) (start en : ℕ) (factor : String) (h : ℕ → ℕ → ℚ) :
    (∃ r, dijkstra adj start en factor = some r) ∧
    (∃ r, astar adj start en factor h = some r) :=
  ⟨dijkstra_total adj start en factor, astar_total adj start en factor h⟩

/-- Claim C6: searching from a node to itself returns cost 0 and the
single-node path, for every adjacency view (the node may be present or
absent), every metric and every heuristic, in both variants; the goal
test fires before any edge is expanded. -/
theorem claim_C6 (adj : AdjT) (x : ℕ) (factor : String) (h : ℕ → ℕ → ℚ) :
    dijkstra adj x x factor = some (0, [x]) ∧
    astar adj x x factor h = some (0, [x]) :=
  ⟨dijkstra_self adj x factor, astar_self adj x factor h⟩

/-- Claim C7: when no path from start to goal exists both variants return
infinite cost and the empty path (no exception), and a node absent from
the adjacency view behaves exactly as one stored with an empty neighbor
list. -/
theorem claim_C7 (adj : AdjT) (start en x : ℕ) (factor : String) (h : ℕ → ℕ → ℚ)
    (hnp : ∀ (pth : List ℕ) (c : Winf), ¬ IsPath adj factor start en pth c)
    (habs : ∀ kv ∈ adj, kv.1 ≠ x) :
    dijkstra adj start en factor = some ((⊤ : Winf), []) ∧
    astar adj start en factor h = some ((⊤ : Winf), []) ∧
    dijkstra ((x, ([] : List Nbr)) :: adj) start en factor
      = dijkstra adj start en factor ∧
    astar ((x, ([] : List Nbr)) :: adj) start en factor h
      = astar adj start en factor h := by
  refine ⟨?_, ?_, dijkstra_absent habs start en factor,
    astar_absent habs start en factor h⟩
  · obtain ⟨r, hr⟩ := dijkstra_total adj start en factor
    rcases dijkstra_post_basic hr with ⟨hre, -⟩ | ⟨c, pth, hrc, hpath, -⟩
    · rw [hr, hre]
    · exact absurd hpath (hnp pth c)
  · obtain ⟨r, hr⟩ := astar_total adj start en factor h
    rcases astar_post_basic hr with ⟨hre, -⟩ | ⟨c, pth, hrc, hpath, -⟩
    · rw [hr, hre]
    · exact absurd hpath (hnp pth c)

/-- Witness for C7 on the empty adjacency view, start 0, goal 1, absent
node 5. -/
theorem claim_C7_witness :
    dijkstra [] 0 1 "distance" = some ((⊤ : Winf), []) ∧
    astar [] 0 1 "distance" (fun _ _ => 0) = some ((⊤ : Winf), []) ∧
    dijkstra ((5, ([] : List Nbr)) :: []) 0 1 "distance"
      = dijkstra [] 0 1 "distance" ∧
    astar ((5, ([] : List Nbr)) :: []) 0 1 "distance" (fun _ _ => 0)
      = astar [] 0 1 "distance" (fun _ _ => 0) :=
  claim_C7 [] 0 1 5 "distance" (fun _ _ => 0)
    (by
      intro pth c hp
      cases hp with
      | cons x w e hmem htail => simp [adjGet] at hmem)
    (by simp)

/-- Claim C8: the weight selector maps each recognized metric identifier
to its magnitude (safety is inverted into `1 - safety_score`), any
unrecognized metric silently falls back to distance, and on a well-formed
edge (all magnitudes present and non-negative, safety score in `[0,1]`)
the returned weight is non-negative for every metric. -/
theorem claim_C8 (e : Edge) (src tgt : ℕ) (mode : String) (d t c m s : ℚ)
    (acc : Bool) (factor : String)
    (he : e = ⟨src, tgt, mode, some d, some t, some c, some m, some s, acc⟩)
    (hd : 0 ≤ d) (ht : 0 ≤ t) (hc : 0 ≤ c) (hm : 0 ≤ m)
    (hs0 : 0 ≤ s) (hs1 : s ≤ 1) :
    get_edge_weight e "distance" = ((d : ℚ) : Winf) ∧
    get_edge_weight e "time" = ((t : ℚ) : Winf) ∧
    get_edge_weight e "cost" = ((c : ℚ) : Winf) ∧
    get_edge_weight e "eco" = ((m : ℚ) : Winf) ∧
    get_edge_weight e "safety" = (((1 - s : ℚ)) : Winf) ∧
    (factor ≠ "distance" → factor ≠ "time" → factor ≠ "cost" → factor ≠ "eco" →
      factor ≠ "safety" → get_edge_weight e factor = ((d : ℚ) : Winf)) ∧
    (0 : Winf) ≤ get_edge_weight e factor := by
  subst he
  refine ⟨by simp [get_edge_weight, magInf], by simp [get_edge_weight, magInf],
    by simp [get_edge_weight, magInf], by simp [get_edge_weight, magInf],
    by simp [get_edge_weight, magInf], ?_, ?_⟩
  · intro h1 h2 h3 h4 h5
    unfold get_edge_weight
    rw [if_neg h1, if_neg h2, if_neg h3, if_neg h4, if_neg h5]
    simp [magInf]
  · by_cases h1 : factor = "distance"
    · subst h1
      unfold get_edge_weight
      rw [if_pos rfl]
      simpa [magInf] using hd
    by_cases h2 : factor = "time"
    · subst h2
      unfold get_edge_weight
      rw [if_neg (by decide), if_pos rfl]
      simpa [magInf] using ht
    by_cases h3 : factor = "cost"
    · subst h3
      unfold get_edge_weight
      rw [if_neg (by decide), if_neg (by decide), if_pos rfl]
      simpa [magInf] using hc
    by_cases h4 : factor = "eco"
    · subst h4
      unfold get_edge_weight
      rw [if_neg (by decide), if_neg (by decide), if_neg (by decide), if_pos rfl]
      simpa [magInf] using hm
    by_cases h5 : factor = "safety"
    · subst h5
      unfold get_edge_weight
      rw [if_neg (by decide), if_neg (by decide), if_neg (by decide),
        if_neg (by decide), if_pos rfl]
      have hsub : (0 : ℚ) ≤ 1 - s := by linarith
      show (0 : Winf) ≤ ((1 - s : ℚ) : Winf)
      exact_mod_cast hsub
    · unfold get_edge_weight
      rw [if_neg h1, if_neg h2, if_neg h3, if_neg h4, if_neg h5]
      simpa [magInf] using hd

/-- Witness for C8 on a concrete edge record and the unrecognized metric
identifier "zzz". -/
theorem claim_C8_witness :
    get_edge_weight (⟨7, 8, "bus", some 1, some 2, some 3, some 4,
        some (1/2), true⟩ : Edge) "distance" = ((1 : ℚ) : Winf) ∧
    get_edge_weight (⟨7, 8, "bus", some 1, some 2, some 3, some 4,
        some (1/2), true⟩ : Edge) "time" = ((2 : ℚ) : Winf) ∧
    get_edge_weight (⟨7, 8, "bus", some 1, some 2, some 3, some 4,
        some (1/2), true⟩ : Edge) "cost" = ((3 : ℚ) : Winf) ∧
    get_edge_weight (⟨7, 8, "bus", some 1, some 2, some 3, some 4,
        some (1/2), true⟩ : Edge) "eco" = ((4 : ℚ) : Winf) ∧
    get_edge_weight (⟨7, 8, "bus", some 1, some 2, some 3, some 4,
        some (1/2), true⟩ : Edge) "safety" = (((1 - 1/2 : ℚ)) : Winf) ∧
    (("zzz" : String) ≠ "distance" → ("zzz" : String) ≠ "time" →
      ("zzz" : String) ≠ "cost" → ("zzz" : String) ≠ "eco" →
      ("zzz" : String) ≠ "safety" →
      get_edge_weight (⟨7, 8, "bus", some 1, some 2, some 3, some 4,
        some (1/2), true⟩ : Edge) "zzz" = ((1 : ℚ) : Winf)) ∧
    (0 : Winf) ≤ get_edge_weight (⟨7, 8, "bus", some 1, some 2, some 3, some 4,
        some (1/2), true⟩ : Edge) "zzz" :=
  claim_C8 _ 7 8 "bus" 1 2 3 4 (1/2) true "zzz" rfl
    (by norm_num) (by norm_num) (by norm_num) (by norm_num)
    (by norm_num) (by norm_num)

/-- Claim C9 counterexample: running `dijkstra` on an undirected edge
0 - 1 with unreachable goal 2, the first iteration finalizes node 0,
and the second iteration — with node 0 already finalized — pushes a new
frontier entry for node 0 (it was not in the frontier before the step),
refuting "no frontier entry is ever pushed for an already-finalized
neighbor". -/
theorem claim_C9_counterexample :
    dijkstraStep undirAdj 2 "distance" [((0 : Winf), 0, ([] : List ℕ))] [] =
      Sum.inr ([(((5:ℚ) : Winf), 1, [0])], [0]) ∧
    dijkstraStep undirAdj 2 "distance" [(((5:ℚ) : Winf), 1, [0])] [0] =
      Sum.inr ([(((10:ℚ) : Winf), 0, [0, 1])], [1, 0]) ∧
    (0 : ℕ) ∈ ([0] : List ℕ) ∧
    (∃ x : DEntry, x ∈ [((((10:ℚ) : Winf), 0, [0, 1]) : DEntry)] ∧ x.2.1 = 0) ∧
    (∀ x : DEntry, x ∈ [((((5:ℚ) : Winf), 1, [0]) : DEntry)] → x.2.1 ≠ 0) := by
  refine ⟨undir_step0, undir_step1, by decide, ?_, ?_⟩
  · exact ⟨(((10:ℚ) : Winf), 0, [0, 1]), List.mem_singleton.mpr rfl, rfl⟩
  · intro x hx
    rw [List.mem_singleton] at hx
    subst hx
    decide

/-- Claim C9 (amended): when a node is finalized a new frontier entry is
pushed for every outgoing edge, including edges whose destination is
already finalized; an extracted entry whose node is already finalized is
instead discarded, leaving the visited set unchanged. -/
theorem claim_C9_amended (adj : AdjT) (en : ℕ) (factor : String)
    (pq rest : List DEntry) (vis : List ℕ) (g : Winf) (n : ℕ) (p : List ℕ)
    (hpop : popMin dLt pq = some ((g, n, p), rest)) :
    (n ∈ vis → dijkstraStep adj en factor pq vis = Sum.inr (rest, vis)) ∧
    (n ∉ vis → n ≠ en →
      dijkstraStep adj en factor pq vis =
        Sum.inr (rest ++ (adjGet adj n).map
          (fun nb => (g + get_edge_weight nb.2.2 factor, nb.1, p ++ [n])),
          n :: vis)) :=
  ⟨fun hv => dijkstraStep_skip hpop hv,
   fun hv hen => dijkstraStep_settle hpop hv hen⟩

/-- Witness for the amended C9 at the second iteration state of the
`undirAdj` run. -/
theorem claim_C9_amended_witness :
    ((1 : ℕ) ∈ ([0] : List ℕ) →
      dijkstraStep undirAdj 2 "distance" [(((5:ℚ) : Winf), 1, [0])] [0] =
        Sum.inr ([], [0])) ∧
    ((1 : ℕ) ∉ ([0] : List ℕ) → (1 : ℕ) ≠ 2 →
      dijkstraStep undirAdj 2 "distance" [(((5:ℚ) : Winf), 1, [0])] [0] =
        Sum.inr ([] ++ (adjGet undirAdj 1).map
          (fun nb => (((5:ℚ) : Winf) + get_edge_weight nb.2.2 "distance",
            nb.1, [0] ++ [1])), 1 :: [0])) :=
  claim_C9_amended undirAdj 2 "distance" [(((5:ℚ) : Winf), 1, [0])] [] [0]
    (((5:ℚ) : Winf)) 1 [0] rfl

/-- Claim C10: every path returned by either search variant is simple
(no node identifier occurs twice); the empty path of the unreachable
result is trivially simple too. -/
theorem claim_C10 (adj : AdjT) (start en : ℕ) (factor : String)
    (h : ℕ → ℕ → ℚ) (c : Winf) (pth : List ℕ) :
    (dijkstra adj start en factor = some (c, pth) → pth.Nodup) ∧
    (astar adj start en factor h = some (c, pth) → pth.Nodup) := by
  constructor
  · intro hr
    rcases dijkstra_post_basic hr with ⟨hre, -⟩ | ⟨c2, p2, hrc, -, hnd⟩
    · simp only [Prod.mk.injEq] at hre
      rw [hre.2]
      exact List.nodup_nil
    · simp only [Prod.mk.injEq] at hrc
      rw [hrc.2]
      exact hnd
  · intro hr
    rcases astar_post_basic hr with ⟨hre, -⟩ | ⟨c2, p2, hrc, -, hnd⟩
    · simp only [Prod.mk.injEq] at hre
      rw [hre.2]
      exact List.nodup_nil
    · simp only [Prod.mk.injEq] at hrc
      rw [hrc.2]
      exact hnd

/-- Witness for C10 on a degenerate concrete run of both variants. -/
theorem claim_C10_witness : ([0] : List ℕ).Nodup ∧ ([0] : List ℕ).Nodup :=
  ⟨(claim_C10 wAdj 0 0 "distance" (fun _ _ => 0) 0 [0]).1 rfl,
   (claim_C10 wAdj 0 0 "distance" (fun _ _ => 0) 0 [0]).2 rfl⟩
